import Mathlib

/-
Verification development for the template instantiation core (Source/CParse/templ.c).

Modelling conventions:
* The opaque SwigType string encoding is modelled as a list of fragments
  (`List String`); its display string is the concatenation of the fragments
  (`render`).  A placeholder such as "$1" or a base name occupies a fragment of
  its own, so DOH's identifier-wise `Replaceid` becomes a fragment-wise splice.
* Parameters are nodes with "name", "value" and "type" attributes.
* External collaborators (DOH, the symbol table, SwigType operations that live
  outside the in-scope file) are either passed in as function arguments or
  modelled from the spec, as indicated by each doc comment.
-/

/-- Display string of a fragment-encoded type: the concatenation of its fragments. -/
def render (s : List String) : String := String.join s

/-- Identifier replacement over a fragment-encoded string, mirroring DOH
`Replaceid` (`DOH_REPLACE_ID`): every fragment equal to the identifier is
replaced by the replacement fragments, and the number of replacements is
returned (templ.c uses this count, e.g. in `does_parm_match`). -/
def replaceid : List String → String → List String → List String × Nat
  | [], _, _ => ([], 0)
  | t :: ts, idtok, r =>
    let rest := replaceid ts idtok r
    if t = idtok then (r ++ rest.1, rest.2 + 1) else (t :: rest.1, rest.2)

theorem mem_of_mem_replaceid {x idtok : String} {r : List String} :
    ∀ {s : List String}, x ∈ (replaceid s idtok r).1 → x ∈ s ∨ x ∈ r := by
  intro s
  induction s with
  | nil => intro h; simp [replaceid] at h
  | cons t ts ih =>
    intro h
    by_cases ht : t = idtok
    · simp [replaceid, ht] at h
      rcases h with h | h
      · exact Or.inr h
      · rcases ih h with h' | h'
        · exact Or.inl (List.mem_cons_of_mem _ h')
        · exact Or.inr h'
    · simp [replaceid, ht] at h
      rcases h with h | h
      · exact Or.inl (by simp [h])
      · rcases ih h with h' | h'
        · exact Or.inl (List.mem_cons_of_mem _ h')
        · exact Or.inr h'

theorem not_mem_replaceid {x : String} {s : List String} {idtok : String}
    {r : List String} (hs : x ∉ s) (hr : x ∉ r) : x ∉ (replaceid s idtok r).1 :=
  fun h => (mem_of_mem_replaceid h).elim hs hr

theorem replaceid_of_not_mem {idtok : String} {r : List String} :
    ∀ {s : List String}, idtok ∉ s → replaceid s idtok r = (s, 0) := by
  intro s
  induction s with
  | nil => intro _; rfl
  | cons t ts ih =>
    intro h
    have ht : ¬t = idtok := fun e => h (e ▸ List.mem_cons_self _ _)
    have hts : idtok ∉ ts := fun e => h (List.mem_cons_of_mem _ e)
    simp [replaceid, ht, ih hts]

theorem not_mem_replaceid_self {s r : List String} {idtok : String}
    (hr : idtok ∉ r) : idtok ∉ (replaceid s idtok r).1 := by
  induction s with
  | nil => simp [replaceid]
  | cons t ts ih =>
    by_cases ht : t = idtok
    · simp [replaceid, ht]
      exact ⟨hr, ih⟩
    · simp [replaceid, ht]
      exact ⟨fun h' => ht h'.symm, ih⟩

/-- Modelled from the spec: `SwigType_base` of the external TypeOps contract
returns the terminal base fragment of an encoded type (e.g. the base of
`r.q(const).p.int` is `int`). -/
def SwigType_base (t : List String) : String := t.getLast?.getD ""

/-- Modelled from the spec: `is_variadic` of the external TypeOps contract holds
when the encoded type starts with the variadic marker fragment. -/
def SwigType_isvariadic (t : List String) : Bool := t.head? == some "v."

/-- Modelled from the spec: `del_variadic` of the external TypeOps contract
removes the leading variadic marker. -/
def SwigType_del_variadic (t : List String) : List String :=
  if SwigType_isvariadic t then t.tail else t

theorem isvariadic_eq_false_of_not_mem {t : List String} (h : "v." ∉ t) :
    SwigType_isvariadic t = false := by
  cases t with
  | nil => rfl
  | cons a t' =>
    have ha : ¬a = "v." := fun e => h (e ▸ List.mem_cons_self _ _)
    simp only [SwigType_isvariadic, List.head?]
    exact beq_eq_false_iff_ne.mpr (fun e => ha (Option.some.inj e))

/-- Parameter node: the attributes of a parameter used by templ.c
("name", "value", "type") together with the "default" mark set by
`mark_defaults`. -/
structure Parm where
  name : Option String
  value : Option (List String)
  type : Option (List String)
  defaultFlag : Bool := false
deriving DecidableEq, Inhabited

/-- Modelled from the spec: `ParmList_variadic_parm` (Source/Swig, outside the
in-scope file) returns the trailing parameter of a list when it is variadic;
the spec fixes that a parameter is variadic iff it is the last in its list. -/
def ParmList_variadic_parm (ps : List Parm) : Option Parm :=
  match ps.getLast? with
  | some p => if SwigType_isvariadic (p.type.getD []) then some p else none
  | none => none

/-- Length of a parameter list (`ParmList_len`). -/
def ParmList_len (ps : List Parm) : Nat := ps.length

/-- Modelled from the spec: `ParmList_numrequired` (outside the in-scope file)
counts the leading parameters that carry no default value. -/
def ParmList_numrequired (ps : List Parm) : Nat :=
  (ps.takeWhile (fun p => p.value.isNone)).length

/-- Prefix test on display strings, mirroring `Strncmp(tt, ty, Len(tt)) == 0`
in `does_parm_match`: the first string is a prefix of the second. -/
def str_isPrefixOf (a b : String) : Bool := a.toList.isPrefixOf b.toList

/-- Match classification of `does_parm_match` (templ.c line 624). -/
inductive EMatch where
  | ExactNoMatch
  | PartiallySpecializedNoMatch
  | PartiallySpecializedMatch
  | ExactMatch
deriving DecidableEq

/-- Sentinel priority for exact matches (templ.c line 641). -/
def EXACT_MATCH_PRIORITY : Int := 99999

/-- Template argument deduction from templ.c `does_parm_match`: typedef-reduce
the concrete type (the external reduction is passed as a function), substitute
the placeholder `$i` in the candidate partial-specialization parameter type by
the reduced type's base, and classify the outcome, producing the
specialization priority (-1 when there is no match). -/
def does_parm_match (reduce : List String → List String)
    (type partial_parm_type : List String) (partial_parm_type_base : String) :
    EMatch × Int :=
  let ty := reduce type
  let base := SwigType_base ty
  let tr := replaceid partial_parm_type partial_parm_type_base [base]
  if tr.2 = 1 then
    let tt := (replaceid partial_parm_type partial_parm_type_base []).1
    if str_isPrefixOf (render tt) (render ty) then
      (.PartiallySpecializedMatch, ((render tt).length : Int))
    else
      (.PartiallySpecializedNoMatch, -1)
  else
    if render ty == render tr.1 then (.ExactMatch, EXACT_MATCH_PRIORITY)
    else (.ExactNoMatch, -1)

/-- C1 counterexample: the claim says `does_parm_match` returns the exact-match
priority only when the substitution count is zero, but on the concrete type
with fragments `int, int` against the candidate `$1, $1` the substitution count
is two and the function still returns `EXACT_MATCH_PRIORITY`, because the code
takes the exact-match branch whenever the count differs from one. -/
theorem does_parm_match_exact_counterexample :
    (does_parm_match (fun t => t) ["int", "int"] ["$1", "$1"] "$1").2 =
      EXACT_MATCH_PRIORITY ∧
    (replaceid ["$1", "$1"] "$1"
      [SwigType_base ((fun t => t) ["int", "int"])]).2 = 2 := by
  constructor <;> rfl

/-- Substitution count of replacing the placeholder in the candidate partial
parameter type by the base of the reduced concrete type (the `substitutions`
variable of does_parm_match). -/
def dpm_substitutions (reduce : List String → List String)
    (type ppt : List String) (ppb : String) : Nat :=
  (replaceid ppt ppb [SwigType_base (reduce type)]).2

/-- The substituted candidate (the `t` variable of does_parm_match). -/
def dpm_substituted (reduce : List String → List String)
    (type ppt : List String) (ppb : String) : List String :=
  (replaceid ppt ppb [SwigType_base (reduce type)]).1

/-- Display string of the candidate with the placeholder removed (the `tt`
variable of does_parm_match). -/
def dpm_stripped (ppt : List String) (ppb : String) : String :=
  render (replaceid ppt ppb []).1

/-- C1 amended: `does_parm_match` returns `(ExactMatch, EXACT_MATCH_PRIORITY)`
iff the substitution count differs from one and the reduced input type equals
the substituted candidate; when the substitution count is exactly one it is a
deduced match iff the reduced type starts with the candidate with the
placeholder removed, with priority the length of that prefix; any other
outcome is a non-match with priority -1. -/
theorem does_parm_match_spec (reduce : List String → List String)
    (type partial_parm_type : List String) (ppb : String) :
    (does_parm_match reduce type partial_parm_type ppb =
        (.ExactMatch, EXACT_MATCH_PRIORITY) ↔
      (dpm_substitutions reduce type partial_parm_type ppb ≠ 1 ∧
        (render (reduce type) ==
          render (dpm_substituted reduce type partial_parm_type ppb)) = true)) ∧
    (dpm_substitutions reduce type partial_parm_type ppb = 1 →
      str_isPrefixOf (dpm_stripped partial_parm_type ppb)
          (render (reduce type)) = true →
      does_parm_match reduce type partial_parm_type ppb =
        (.PartiallySpecializedMatch,
          ((dpm_stripped partial_parm_type ppb).length : Int))) ∧
    (dpm_substitutions reduce type partial_parm_type ppb = 1 →
      str_isPrefixOf (dpm_stripped partial_parm_type ppb)
          (render (reduce type)) = false →
      does_parm_match reduce type partial_parm_type ppb =
        (.PartiallySpecializedNoMatch, -1)) ∧
    (dpm_substitutions reduce type partial_parm_type ppb ≠ 1 →
      (render (reduce type) ==
        render (dpm_substituted reduce type partial_parm_type ppb)) = false →
      does_parm_match reduce type partial_parm_type ppb =
        (.ExactNoMatch, -1)) := by
  simp only [does_parm_match, dpm_substitutions, dpm_substituted, dpm_stripped]
  by_cases hs : (replaceid partial_parm_type ppb [SwigType_base (reduce type)]).2 = 1
  · simp only [hs, if_pos rfl]
    by_cases hp :
        str_isPrefixOf (render (replaceid partial_parm_type ppb []).1)
          (render (reduce type)) = true
    · simp [hp]
    · simp [Bool.not_eq_true] at hp
      simp [hp]
  · simp only [if_neg hs]
    by_cases he :
        (render (reduce type) ==
          render (replaceid partial_parm_type ppb
            [SwigType_base (reduce type)]).1) = true
    · simp [he, hs]
    · simp [Bool.not_eq_true] at he
      simp [he, hs]

/-- Witness for the amended C1 theorem at a concrete input: matching the
concrete type `p.int` against the candidate `p.$1` is a deduced match with
priority the length of the prefix `p.`. -/
theorem does_parm_match_spec_witness :
    does_parm_match (fun t => t) ["p.", "int"] ["p.", "$1"] "$1" =
      (.PartiallySpecializedMatch, 2) := by
  have h := does_parm_match_spec (fun t => t) ["p.", "int"] ["p.", "$1"] "$1"
  simpa using h.2.1 (by decide) (by decide)

/-- Arity-check fragment of `Swig_cparse_template_locate` for class templates
(templ.c lines 1064-1076): with the located template's `templateparms`
(absent for an explicit specialization), emit "Too many" / "Not enough" arity
errors, then set the `instantiate` flag and return the node regardless.  The
Bool result records that the node is marked and returned as the match. -/
def locate_class_arity (instantiated_parms : List Parm)
    (tparmsfound : Option (List Parm)) : List String × Bool :=
  match tparmsfound with
  | none => ([], true)
  | some tps =>
    let variadic := (ParmList_variadic_parm tps).isSome
    let errs :=
      if ¬variadic ∧ ParmList_len tps < ParmList_len instantiated_parms then
        ["Too many template parameters."]
      else if ParmList_len instantiated_parms <
          ParmList_numrequired tps - (if variadic then 1 else 0) then
        ["Not enough template parameters specified."]
      else []
    (errs, true)

/-- C2 counterexample: instantiating a non-variadic primary with one required
parameter (k = n = 1) with two arguments emits the arity error, yet the node is
still marked for instantiation and returned, contradicting the claim that an
arity error comes with no returned instantiation. -/
theorem locate_class_arity_counterexample :
    (locate_class_arity
        [⟨none, none, some ["int"], false⟩, ⟨none, none, some ["char"], false⟩]
        (some [⟨some "T", none, some ["T"], false⟩])).1 ≠ [] ∧
    (locate_class_arity
        [⟨none, none, some ["int"], false⟩, ⟨none, none, some ["char"], false⟩]
        (some [⟨some "T", none, some ["T"], false⟩])).2 = true := by
  constructor
  · decide
  · rfl

/-- C2 amended: for a class-template primary with k required and n total
template parameters, locate emits no arity error iff k <= len(args) <= n
(for a variadic primary the lower bound is k - 1 and there is no upper bound);
when the arity is violated the error is emitted but the template is still
marked for instantiation and returned, not dropped. -/
theorem locate_class_arity_spec (inst tps : List Parm) :
    let len := ParmList_len inst
    let k := ParmList_numrequired tps
    let n := ParmList_len tps
    let variadic := (ParmList_variadic_parm tps).isSome
    ((locate_class_arity inst (some tps)).1 = [] ↔
      (if variadic then k - 1 ≤ len else k ≤ len ∧ len ≤ n)) ∧
    (locate_class_arity inst (some tps)).2 = true := by
  simp only [locate_class_arity]
  cases hv : (ParmList_variadic_parm tps).isSome with
  | true =>
    simp [hv]
  | false =>
    simp [hv]
    all_goals split_ifs with h1 h2 <;> simp_all

/-- De-duplication step of `template_locate` (templ.c lines 776-811): the
explicit-specialization lookup found a node `n` that carries a `template`
attribute `tn` from a previous instantiation.  The previous *named*
instantiation is `n` itself, or its `csym:nextSibling` when `n` is hidden
(dummy symbol name).  An unnamed request is dropped silently; a named request
is dropped with a duplicate-instantiation warning when a named previous
instantiation exists; otherwise the named request supersedes the prior empty
instantiation and `tn` is returned.  Result: (returned node, warning emitted). -/
def template_locate_dedup {α : Type} (symname : Option String) (hidden : Bool)
    (csymNext : Option α) (n tn : α) : Option α × Bool :=
  let previous_named_instantiation : Option α := if hidden then csymNext else some n
  match symname with
  | none => (none, false)
  | some _ =>
    match previous_named_instantiation with
    | some _ => (none, true)
    | none => (some tn, false)

/-- C3: a duplicate named instantiation is rejected with a warning and no
returned node; an unnamed instantiation is silently dropped whenever a prior
instantiation exists (this code path presupposes one); a named instantiation
supersedes a prior empty instantiation, returning the prior instantiation's
template node without a warning. -/
theorem template_locate_dedup_spec {α : Type} (symname : Option String)
    (hidden : Bool) (csymNext : Option α) (n tn : α) :
    (symname.isSome = true →
      (if hidden then csymNext else some n).isSome = true →
      template_locate_dedup symname hidden csymNext n tn = (none, true)) ∧
    (symname = none →
      template_locate_dedup symname hidden csymNext n tn = (none, false)) ∧
    (symname.isSome = true →
      (if hidden then csymNext else some n) = none →
      template_locate_dedup symname hidden csymNext n tn = (some tn, false)) := by
  refine ⟨?_, ?_, ?_⟩
  · intro hs hp
    cases symname with
    | none => simp at hs
    | some s =>
      simp only [template_locate_dedup]
      cases hprev : (if hidden then csymNext else some n) with
      | none => rw [hprev] at hp; simp at hp
      | some p => rfl
  · intro hs
    subst hs
    rfl
  · intro hs hp
    cases symname with
    | none => simp at hs
    | some s =>
      simp only [template_locate_dedup]
      rw [hp]

/-- Witness for C3 at a concrete input: a named instantiation that finds a
hidden prior instantiation with no named sibling supersedes it and returns the
prior instantiation's template node. -/
theorem template_locate_dedup_spec_witness :
    template_locate_dedup (some "IntBox") true (none : Option Nat) 0 7 =
      (some 7, false) :=
  (template_locate_dedup_spec (some "IntBox") true (none : Option Nat) 0 7).2.2
    rfl (by simp)

/-- Node information consulted by the typename-replace collision guard: the
`sym:name` attribute and whether a `templatetype` attribute is present. -/
structure SymNode where
  symName : Option String
  templatetype : Bool
deriving DecidableEq

/-- Modelled from the spec: `SwigType_typename_replace` of the external TypeOps
contract rewrites occurrences of a type name inside an encoded type by the
replacement (modelled fragment-wise). -/
def SwigType_typename_replace (s : List String) (nm : String)
    (r : List String) : List String :=
  (replaceid s nm r).1

/-- Guarded typelist substitution from `Swig_cparse_template_expand` (templ.c
lines 554-563): look up the type string in the symbol table (the lookup is the
external `Swig_symbol_clookup`, passed as a function); perform the two
typename replaces (parameter name -> deduced value, template base name ->
instance name) unless the looked-up node's `sym:name` equals the primary
template's `sym:name` (both present) and the looked-up node has no
`templatetype` attribute.  Result: (new entry, whether the replaces ran). -/
def typelist_substitute (lookup : List String → Option SymNode)
    (tsname : Option String) (nm : String) (dvalue : List String)
    (tbase : String) (iname : List String) (s : List String) :
    List String × Bool :=
  let tynode := lookup s
  let tyname := tynode.bind SymNode.symName
  if tyname.isNone || tsname.isNone || !(tyname == tsname) ||
      (tynode.map SymNode.templatetype).getD false then
    (SwigType_typename_replace (SwigType_typename_replace s nm dvalue) tbase iname,
      true)
  else
    (s, false)

/-- C7: the typename replace on a typelist entry S is skipped exactly when the
symbol-table lookup of S yields a node whose `sym:name` equals the primary's
`sym:name` (both present) and that node has no `templatetype` attribute; in
every other case both typename replaces are performed (first the parameter
name by its deduced value, then the template base name by the instance name). -/
theorem typelist_substitute_spec (lookup : List String → Option SymNode)
    (tsname : Option String) (nm : String) (dvalue : List String)
    (tbase : String) (iname : List String) (s : List String) :
    let r := typelist_substitute lookup tsname nm dvalue tbase iname s
    ((r.2 = false) ↔
      ∃ node t, lookup s = some node ∧ node.symName = some t ∧
        tsname = some t ∧ node.templatetype = false) ∧
    (r.2 = true →
      r.1 = SwigType_typename_replace (SwigType_typename_replace s nm dvalue)
        tbase iname) ∧
    (r.2 = false → r.1 = s) := by
  simp only [typelist_substitute]
  cases hn : lookup s with
  | none => simp [hn]
  | some node =>
    cases hs : node.symName with
    | none => simp [hn, hs]
    | some t =>
      cases ht : tsname with
      | none => simp [hn, hs, ht]
      | some t' =>
        by_cases he : t = t'
        · subst he
          by_cases htt : node.templatetype
          · simp [hn, hs, ht, htt]
          · simp only [Bool.not_eq_true] at htt
            simp [hn, hs, ht, htt]
        · simp [hn, hs, ht, he]
          exact fun x => absurd x.symm he

/-- Witness for C7 at a concrete input: the lookup finds a node with the same
`sym:name` as the primary and no `templatetype`, so the replaces are skipped
and the entry is unchanged. -/
theorem typelist_substitute_spec_witness :
    (typelist_substitute (fun _ => some ⟨some "X", false⟩) (some "X") "T"
      ["int"] "X" ["X<(int)>"] ["p.", "X"]).1 = ["p.", "X"] := by
  have h := typelist_substitute_spec (fun _ => some ⟨some "X", false⟩)
    (some "X") "T" ["int"] "X" ["X<(int)>"] ["p.", "X"]
  exact h.2.2 (h.1.mpr ⟨⟨some "X", false⟩, "X", rfl, rfl, rfl, rfl⟩)

/-- A symbol-table sibling considered by the function-template branch of
`Swig_cparse_template_locate`: its nodeType tag, its `templateparms`, and its
`instantiate` flag. -/
structure FTmpl where
  nodeTy : String
  tparms : List Parm
  instantiate : Bool
deriving DecidableEq

/-- First-pass predicate of the function-template branch (templ.c lines
1095-1112): a non-variadic template sibling whose `templateparms` length
equals the number of instantiated parameters. -/
def fn_nonvariadic_ok (len : Nat) (t : FTmpl) : Bool :=
  t.nodeTy == "template" && (ParmList_variadic_parm t.tparms).isNone &&
    (ParmList_len t.tparms == len)

/-- Second-pass predicate of the function-template branch (templ.c lines
1115-1135): a variadic template sibling with
`len(instantiated_parms) >= len(templateparms) - 1`. -/
def fn_variadic_ok (len : Nat) (t : FTmpl) : Bool :=
  t.nodeTy == "template" && (ParmList_variadic_parm t.tparms).isSome &&
    (ParmList_len t.tparms ≤ len + 1)

/-- Set the `instantiate` flag on every sibling satisfying the predicate
(`SetFlag(n, "instantiate")` inside the matching loops). -/
def mark_instantiate (pred : FTmpl → Bool) (sibs : List FTmpl) : List FTmpl :=
  sibs.map (fun t => if pred t then { t with instantiate := true } else t)

/-- Index of the first sibling satisfying the predicate: the node the C loop
keeps as `match` (`if (!match) match = n`). -/
def first_match_idx (pred : FTmpl → Bool) : List FTmpl → Option Nat
  | [] => none
  | t :: ts => if pred t then some 0 else (first_match_idx pred ts).map (fun i => i + 1)

theorem first_match_idx_eq_none_iff (pred : FTmpl → Bool) :
    ∀ l : List FTmpl, first_match_idx pred l = none ↔ ∀ x ∈ l, pred x = false := by
  intro l
  induction l with
  | nil => simp [first_match_idx]
  | cons t ts ih =>
    by_cases hp : pred t
    · simp [first_match_idx, hp]
    · simp only [Bool.not_eq_true] at hp
      simp [first_match_idx, hp, ih]

/-- Result of the function-template branch: the sibling list with flags set,
the index of the first match (the returned node), and whether the
undefined-template error was emitted. -/
structure FnLocateResult where
  sibs : List FTmpl
  matchIdx : Option Nat
  errorEmitted : Bool
deriving DecidableEq

/-- Function-template branch of `Swig_cparse_template_locate` (templ.c lines
1077-1140): walk the symbol-table siblings of the primary name, mark every
non-variadic template of matching arity; only if none matched, repeat
accepting variadic templates; return the first match, or emit the
`Template undefined` error when there is none. -/
def Swig_cparse_template_locate_function (len : Nat) (sibs : List FTmpl) :
    FnLocateResult :=
  let sibs1 := mark_instantiate (fn_nonvariadic_ok len) sibs
  match first_match_idx (fn_nonvariadic_ok len) sibs with
  | some i => ⟨sibs1, some i, false⟩
  | none =>
    let m2 := first_match_idx (fn_variadic_ok len) sibs
    ⟨mark_instantiate (fn_variadic_ok len) sibs1, m2, m2.isNone⟩

theorem mark_instantiate_of_none (pred : FTmpl → Bool) (sibs : List FTmpl)
    (h : ∀ t ∈ sibs, pred t = false) : mark_instantiate pred sibs = sibs := by
  induction sibs with
  | nil => rfl
  | cons t ts ih =>
    simp only [mark_instantiate, List.map_cons, h t (List.mem_cons_self _ _),
      Bool.false_eq_true, if_false, List.cons.injEq, true_and]
    exact ih (fun x hx => h x (List.mem_cons_of_mem _ hx))

/-- C5: for a function-template instantiation the locator marks
`instantiate=true` on exactly the non-variadic sibling templates whose
`templateparms` length equals the number of instantiated parameters, returning
the first of them with no error; only when no such sibling exists does it
repeat the walk accepting variadic templates with
`len(instantiated_parms) >= len(templateparms) - 1`, returning the first such
match; the undefined-template error is emitted iff neither pass matched. -/
theorem locate_function_spec (len : Nat) (sibs : List FTmpl) :
    let r := Swig_cparse_template_locate_function len sibs
    ((∃ t ∈ sibs, fn_nonvariadic_ok len t = true) →
      r.sibs = mark_instantiate (fn_nonvariadic_ok len) sibs ∧
      r.matchIdx = first_match_idx (fn_nonvariadic_ok len) sibs ∧
      r.errorEmitted = false) ∧
    ((∀ t ∈ sibs, fn_nonvariadic_ok len t = false) →
      r.sibs = mark_instantiate (fn_variadic_ok len) sibs ∧
      r.matchIdx = first_match_idx (fn_variadic_ok len) sibs ∧
      (r.errorEmitted = true ↔ ∀ t ∈ sibs, fn_variadic_ok len t = false)) := by
  constructor
  · intro hex
    have hfind : first_match_idx (fn_nonvariadic_ok len) sibs ≠ none := by
      rw [Ne, first_match_idx_eq_none_iff]
      push_neg
      rcases hex with ⟨t, ht, hp⟩
      exact ⟨t, ht, by simp [hp]⟩
    cases hm : first_match_idx (fn_nonvariadic_ok len) sibs with
    | none => exact absurd hm hfind
    | some i =>
      refine ⟨?_, ?_, ?_⟩ <;> simp [Swig_cparse_template_locate_function, hm]
  · intro hall
    have hfind : first_match_idx (fn_nonvariadic_ok len) sibs = none :=
      (first_match_idx_eq_none_iff _ _).mpr hall
    have hmark := mark_instantiate_of_none (fn_nonvariadic_ok len) sibs hall
    refine ⟨?_, ?_, ?_⟩ <;>
      simp [Swig_cparse_template_locate_function, hfind, hmark,
        Option.isNone_iff_eq_none, first_match_idx_eq_none_iff]

/-- Witness for C5 at a concrete input: with no non-variadic arity match, the
second pass returns the variadic sibling (index 1) and emits no error. -/
theorem locate_function_spec_witness :
    (Swig_cparse_template_locate_function 2
        [⟨"template", [⟨some "T", none, some ["T"], false⟩], false⟩,
         ⟨"template", [⟨some "V", none, some ["v.", "V"], false⟩], false⟩]).matchIdx =
      some 1 ∧
    (Swig_cparse_template_locate_function 2
        [⟨"template", [⟨some "T", none, some ["T"], false⟩], false⟩,
         ⟨"template", [⟨some "V", none, some ["v.", "V"], false⟩], false⟩]).errorEmitted =
      false := by
  have h2 := (locate_function_spec 2
    [⟨"template", [⟨some "T", none, some ["T"], false⟩], false⟩,
     ⟨"template", [⟨some "V", none, some ["v.", "V"], false⟩], false⟩]).2 (by decide)
  refine ⟨?_, ?_⟩
  · rw [h2.2.1]
    decide
  · cases hE : (Swig_cparse_template_locate_function 2
        [⟨"template", [⟨some "T", none, some ["T"], false⟩], false⟩,
         ⟨"template", [⟨some "V", none, some ["v.", "V"], false⟩], false⟩]).errorEmitted with
    | false => rfl
    | true =>
      have hv := h2.2.2.mp hE
        ⟨"template", [⟨some "V", none, some ["v.", "V"], false⟩], false⟩ (by decide)
      exact absurd hv (by decide)

/-- Column maximum of the priority matrix (templ.c lines 926-941): the highest
rank for the c-th parameter over all surviving candidates, starting from the
initial value -1. -/
def colMax (m : List (List Int)) (c : Nat) : Int :=
  m.foldl (fun acc row => max acc (row.getD c (-1))) (-1)

/-- Flagging pass of the matrix reduction (templ.c lines 942-947): each entry
becomes 1 when its priority reaches the column maximum, else 0. -/
def flag_row (C : Nat) (m : List (List Int)) (row : List Int) : List Nat :=
  (List.range C).map (fun c => if colMax m c ≤ row.getD c (-1) then 1 else 0)

/-- Winner test of the matrix reduction (templ.c lines 957-974): the count of
highest-priority parameters in the row equals the number of parameters. -/
def row_wins (C : Nat) (m : List (List Int)) (row : List Int) : Bool :=
  ((flag_row C m row).foldl (· + ·) 0) == C

/-- The `chosenpartials` list (templ.c lines 950-974): the surviving candidates
whose matrix row is all 1s, in discovery order. -/
def chosen_partials {β : Type} (C : Nat) (cands : List β)
    (m : List (List Int)) : List β :=
  ((cands.zip m).filter (fun cr => row_wins C m cr.2)).map Prod.fst

/-- Matrix reduction over the surviving candidates (templ.c lines 895-985):
when more than one candidate survives, reduce to the winners if there are any,
else keep the full surviving set; the first entry of the result is looked up
as the chosen specialization, and when more than one entry remains the
ambiguity warning names the first and each of the others as ignored. -/
def template_locate_select {β : Type} (C : Nat) (cands : List β)
    (m : List (List Int)) : List β :=
  if 1 < cands.length then
    let w := chosen_partials C cands m
    if 0 < w.length then w else cands
  else cands

theorem le_foldl_max (c : Nat) :
    ∀ (m : List (List Int)) (i : Int),
      i ≤ m.foldl (fun acc row => max acc (row.getD c (-1))) i := by
  intro m
  induction m with
  | nil => intro i; exact le_refl i
  | cons r rs ih =>
    intro i
    exact le_trans (le_max_left i (r.getD c (-1))) (ih (max i (r.getD c (-1))))

theorem getD_le_colMax {row : List Int} (c : Nat) :
    ∀ {m : List (List Int)} {i : Int}, row ∈ m →
      row.getD c (-1) ≤ m.foldl (fun acc row => max acc (row.getD c (-1))) i := by
  intro m
  induction m with
  | nil => intro i h; cases h
  | cons r rs ih =>
    intro i h
    rcases List.mem_cons.mp h with h | h
    · subst h
      exact le_trans (le_max_right i (row.getD c (-1))) (le_foldl_max c rs _)
    · exact ih h

theorem foldl_add_init (l : List Nat) :
    ∀ i : Nat, l.foldl (· + ·) i = i + l.foldl (· + ·) 0 := by
  induction l with
  | nil => intro i; simp
  | cons x xs ih =>
    intro i
    simp only [List.foldl_cons]
    rw [ih (i + x), ih (0 + x)]
    omega

theorem foldl_add_le_length (l : List Nat) (hle : ∀ x ∈ l, x ≤ 1) :
    l.foldl (· + ·) 0 ≤ l.length := by
  induction l with
  | nil => simp
  | cons x xs ih =>
    simp only [List.foldl_cons, List.length_cons]
    rw [foldl_add_init xs (0 + x)]
    have hxs := ih (fun y hy => hle y (List.mem_cons_of_mem _ hy))
    have hx := hle x (List.mem_cons_self _ _)
    omega

theorem sum_flags_iff (l : List Nat) (hle : ∀ x ∈ l, x ≤ 1) :
    (l.foldl (· + ·) 0 = l.length) ↔ ∀ x ∈ l, x = 1 := by
  induction l with
  | nil => simp
  | cons x xs ih =>
    simp only [List.foldl_cons, List.length_cons]
    rw [foldl_add_init xs (0 + x)]
    have hx := hle x (List.mem_cons_self _ _)
    have hxs := fun y hy => hle y (List.mem_cons_of_mem _ hy)
    have hb := foldl_add_le_length xs hxs
    constructor
    · intro h
      have hx1 : x = 1 := by omega
      have hs : xs.foldl (· + ·) 0 = xs.length := by omega
      intro y hy
      rcases List.mem_cons.mp hy with hy | hy
      · exact hy ▸ hx1
      · exact (ih hxs).mp hs y hy
    · intro h
      have hx1 : x = 1 := h x (List.mem_cons_self _ _)
      have hs : xs.foldl (· + ·) 0 = xs.length :=
        (ih hxs).mpr (fun y hy => h y (List.mem_cons_of_mem _ hy))
      omega

theorem row_wins_iff {m : List (List Int)} {row : List Int} (C : Nat)
    (hm : row ∈ m) :
    row_wins C m row = true ↔ ∀ c < C, row.getD c (-1) = colMax m c := by
  have hle : ∀ x ∈ flag_row C m row, x ≤ 1 := by
    intro x hx
    simp only [flag_row, List.mem_map] at hx
    rcases hx with ⟨c, _, hc⟩
    split at hc <;> omega
  have hlen : (flag_row C m row).length = C := by simp [flag_row]
  have key := sum_flags_iff (flag_row C m row) hle
  rw [hlen] at key
  simp only [row_wins, beq_iff_eq]
  rw [key]
  constructor
  · intro h c hc
    have hflag : (if colMax m c ≤ row.getD c (-1) then (1 : Nat) else 0) = 1 := by
      apply h
      simp only [flag_row, List.mem_map]
      exact ⟨c, List.mem_range.mpr hc, rfl⟩
    have hub : row.getD c (-1) ≤ colMax m c := getD_le_colMax c hm
    split at hflag
    · next hge => exact le_antisymm hub hge
    · exact absurd hflag (by decide)
  · intro h x hx
    simp only [flag_row, List.mem_map] at hx
    rcases hx with ⟨c, hcr, hc⟩
    subst hc
    rw [h c (List.mem_range.mp hcr)]
    simp

/-- C4: in the matrix reduction a candidate wins iff each of its row entries
equals its column maximum; the selection keeps the winners when there are any
and otherwise falls back to the full surviving candidate set (so the chosen
candidate is the first winner, or the first surviving candidate when no row
wins, and the remaining entries of the selection are the ones named as ignored
by the ambiguity warning); the winners keep discovery order (a sublist of the
candidate list). -/
theorem template_locate_matrix_spec {β : Type} (C : Nat) (cands : List β)
    (m : List (List Int)) (hlen : cands.length = m.length) :
    (∀ row ∈ m, (row_wins C m row = true ↔
      ∀ c < C, row.getD c (-1) = colMax m c)) ∧
    (template_locate_select C cands m =
      if (chosen_partials C cands m).isEmpty then cands
      else chosen_partials C cands m) ∧
    (chosen_partials C cands m).Sublist cands := by
  refine ⟨fun row hm => row_wins_iff C hm, ?_, ?_⟩
  · by_cases h1 : 1 < cands.length
    · simp only [template_locate_select, if_pos h1]
      cases hE : chosen_partials C cands m with
      | nil => simp [hE]
      | cons a t => simp [hE]
    · simp only [template_locate_select, if_neg h1]
      rcases cands with _ | ⟨x, xs⟩
      · have hm0 : m = [] := List.length_eq_zero.mp hlen.symm
        subst hm0
        simp [chosen_partials]
      · rcases xs with _ | ⟨y, ys⟩
        · have hm1 : m.length = 1 := by simpa using hlen.symm
          obtain ⟨row, hm⟩ := List.length_eq_one.mp hm1
          subst hm
          by_cases hwin : row_wins C [row] row = true
          · simp [chosen_partials, hwin]
          · simp only [Bool.not_eq_true] at hwin
            simp [chosen_partials, hwin]
        · exact absurd (by simp only [List.length_cons]; omega) h1
  · have hsub1 : ((cands.zip m).filter
        (fun cr => row_wins C m cr.2)).Sublist (cands.zip m) :=
      List.filter_sublist _
    have hsub2 := hsub1.map Prod.fst
    rw [List.map_fst_zip cands m (le_of_eq hlen)] at hsub2
    exact hsub2

/-- Witness for C4 at a concrete input: two candidates each best on one column
only, so no row wins and the selection falls back to the full surviving set
(first candidate chosen, second reported as ignored). -/
theorem template_locate_matrix_spec_witness :
    template_locate_select 2 ["specA", "specB"]
        [[99999, 3], [2, 99999]] = ["specA", "specB"] := by
  have h := (template_locate_matrix_spec 2 ["specA", "specB"]
    [[99999, 3], [2, 99999]] rfl).2.1
  rw [h]
  decide

/-- Pack expansion from templ.c `expand_variadic_parms` (lines 74-94): when an
unexpanded variadic template parameter is in scope and the parameter list
stored under the attribute ends with a variadic parameter, that trailing
parameter is replaced by a copy of the pack argument list in which each
element's type becomes a copy of the variadic parameter's type with the
variadic marker deleted and the pack placeholder name identifier-replaced by
the element's own type.  Nothing happens when there is no variadic parameter
or no variadic template parameter in scope. -/
def expand_variadic_parms (p : List Parm) (unexpanded_variadic_parm : Option Parm)
    (expanded_variadic_parms : List Parm) : List Parm :=
  match unexpanded_variadic_parm with
  | none => p
  | some uv =>
    match ParmList_variadic_parm p with
    | none => p
    | some variadic =>
      let ty := variadic.type.getD []
      let unexpanded_name := uv.name.getD ""
      let expanded := expanded_variadic_parms.map (fun ep =>
        { ep with
            type :=
              some (replaceid (SwigType_del_variadic ty) unexpanded_name
                (ep.type.getD [])).1 })
      p.dropLast ++ expanded

theorem ParmList_variadic_parm_of_last {ps : List Parm} {V : Parm}
    (hlast : ps.getLast? = some V)
    (hvar : SwigType_isvariadic (V.type.getD []) = true) :
    ParmList_variadic_parm ps = some V := by
  simp [ParmList_variadic_parm, hlast, hvar]

/-- C9: with a pack in scope and a parameter list ending in a variadic
parameter V, pack expansion yields the prefix before V followed by the pack
arguments, each with its type set to V's type with the variadic marker deleted
and the placeholder replaced by the argument's original type; and for any list
with no variadic parameter the expansion changes nothing. -/
theorem expand_variadic_parms_spec (ps pack : List Parm) (uv V : Parm)
    (hlast : ps.getLast? = some V)
    (hvar : SwigType_isvariadic (V.type.getD []) = true) :
    expand_variadic_parms ps (some uv) pack =
      ps.dropLast ++ pack.map (fun ep =>
        { ep with
            type :=
              some (replaceid (SwigType_del_variadic (V.type.getD []))
                (uv.name.getD "") (ep.type.getD [])).1 }) ∧
    (∀ (qs : List Parm) (u : Option Parm) (pk : List Parm),
      ParmList_variadic_parm qs = none → expand_variadic_parms qs u pk = qs) := by
  constructor
  · simp [expand_variadic_parms, ParmList_variadic_parm_of_last hlast hvar]
  · intro qs u pk hq
    cases u with
    | none => rfl
    | some uv' => simp [expand_variadic_parms, hq]

/-- Witness for C9 at a concrete input: expanding the constructor parameter
list `A x, v.r.T tt` against the pack `A, B` gives `A x, r.A, r.B`. -/
theorem expand_variadic_parms_spec_witness :
    expand_variadic_parms
        [⟨some "x", none, some ["A"], false⟩,
         ⟨some "tt", none, some ["v.", "r.", "T"], false⟩]
        (some ⟨some "T", none, some ["v.", "T"], false⟩)
        [⟨none, none, some ["A"], false⟩, ⟨none, none, some ["B"], false⟩] =
      [⟨some "x", none, some ["A"], false⟩,
       ⟨none, none, some ["r.", "A"], false⟩,
       ⟨none, none, some ["r.", "B"], false⟩] := by
  have h := (expand_variadic_parms_spec
    [⟨some "x", none, some ["A"], false⟩,
     ⟨some "tt", none, some ["v.", "r.", "T"], false⟩]
    [⟨none, none, some ["A"], false⟩, ⟨none, none, some ["B"], false⟩]
    ⟨some "T", none, some ["v.", "T"], false⟩
    ⟨some "tt", none, some ["v.", "r.", "T"], false⟩
    (by decide) (by decide)).1
  rw [h]
  decide

/-- The string expand_defaults substitutes into for a parameter: its default
value when present, else its type (templ.c lines 1199-1201). -/
def valueOrType (p : Parm) : List String := p.value.getD (p.type.getD [])

/-- Write the substituted string back into the attribute it was read from
(the in-place mutation of `tv` in expand_defaults). -/
def set_valueOrType (p : Parm) (tv : List String) : Parm :=
  if p.value.isSome then { p with value := some tv } else { p with type := some tv }

/-- One inner-loop step of expand_defaults (templ.c lines 1202-1210): replace
the parameter's name inside the working string by its value-or-type. -/
def subst_one (tv : List String) (p : Parm) : List String :=
  match p.name with
  | some nm => (replaceid tv nm (valueOrType p)).1
  | none => tv

/-- The inner-loop step at the parameter being processed itself, whose
value-or-type is aliased to the working string. -/
def subst_self (tv : List String) (p : Parm) : List String :=
  match p.name with
  | some nm => (replaceid tv nm tv).1
  | none => tv

/-- The full inner loop of expand_defaults for the parameter `p`, with the
already-processed prefix `done` and the still-unprocessed suffix `todo` read
in list order. -/
def expand_defaults_inner (done : List Parm) (p : Parm) (todo : List Parm) :
    List String :=
  todo.foldl subst_one (subst_self (done.foldl subst_one (valueOrType p)) p)

/-- The outer loop of expand_defaults, processing the list in order and
mutating each parameter's value-or-type in place. -/
def expand_defaults_go : List Parm → List Parm → List Parm
  | done, [] => done
  | done, p :: todo =>
    expand_defaults_go
      (done ++ [set_valueOrType p (expand_defaults_inner done p todo)]) todo

/-- expand_defaults from templ.c lines 1195-1213: for each parameter P with a
working string (default value, else type), replace every parameter Q's name
inside it by Q's value (or type), sequentially and in place. -/
def expand_defaults (l : List Parm) : List Parm := expand_defaults_go [] l

/-- merge_parameters from templ.c lines 1160-1171: pairwise copy the parameter
names from the chosen template's templateparms, and the types for parameters
that have none (non-type template parameters). -/
def merge_parameters : List Parm → List Parm → List Parm
  | [], _ => []
  | p :: ps, [] => p :: ps
  | p :: ps, tp :: tps =>
    { p with name := tp.name, type := p.type.orElse (fun _ => tp.type) } ::
      merge_parameters ps tps

/-- mark_defaults from templ.c lines 1179-1185: mark every parameter expanded
from a default value. -/
def mark_defaults (ps : List Parm) : List Parm :=
  ps.map (fun p => { p with defaultFlag := true })

/-- Swig_cparse_template_parms_expand from templ.c lines 1225-1251, with the
primary's templatetype (class or not) and templateparms passed explicitly:
copy the instantiated parameters, merge names/types from the primary, and for
a non-variadic class template append the primary's remaining default
parameters (marked) and run expand_defaults on the joined list. -/
def Swig_cparse_template_parms_expand (instantiated_parms : List Parm)
    (templatetype_class : Bool) (templateparms : List Parm) : List Parm :=
  if templatetype_class then
    let expanded_templateparms := merge_parameters instantiated_parms templateparms
    if (ParmList_variadic_parm templateparms).isSome then expanded_templateparms
    else
      let defaults_start := templateparms.drop (ParmList_len instantiated_parms)
      if defaults_start.isEmpty then expanded_templateparms
      else expand_defaults (expanded_templateparms ++ mark_defaults defaults_start)
  else
    merge_parameters instantiated_parms templateparms

/-- A parameter name occurs in the list. -/
def nameIn (l : List Parm) (nm : String) : Prop := ∃ p ∈ l, p.name = some nm

/-- The value-or-type of `p` mentions no name of `q` (Bool form). -/
def parm_name_ok (p q : Parm) : Bool :=
  match q.name with
  | some nm => decide (nm ∉ valueOrType p)
  | none => true

/-- Input discipline for expand_defaults, holding of well-formed C++ template
parameter lists: each parameter's value-or-type mentions no name of itself or
of any later parameter (a default argument may only reference earlier
parameters, and concrete instantiated arguments mention no parameter names of
their own suffix). -/
def no_late_refs : List Parm → Bool
  | [] => true
  | p :: rest => (p :: rest).all (parm_name_ok p) && no_late_refs rest

theorem parm_name_ok_spec {p q : Parm} (h : parm_name_ok p q = true) :
    ∀ nm, q.name = some nm → nm ∉ valueOrType p := by
  intro nm hnm
  simp only [parm_name_ok, hnm] at h
  exact of_decide_eq_true h

theorem no_late_refs_cons {p : Parm} {rest : List Parm}
    (h : no_late_refs (p :: rest) = true) :
    (∀ q ∈ p :: rest, ∀ nm, q.name = some nm → nm ∉ valueOrType p) ∧
      no_late_refs rest = true := by
  simp only [no_late_refs, Bool.and_eq_true, List.all_eq_true] at h
  exact ⟨fun q hq => parm_name_ok_spec (h.1 q hq), h.2⟩

theorem set_valueOrType_name (p : Parm) (tv : List String) :
    (set_valueOrType p tv).name = p.name := by
  unfold set_valueOrType
  split <;> rfl

theorem set_valueOrType_flag (p : Parm) (tv : List String) :
    (set_valueOrType p tv).defaultFlag = p.defaultFlag := by
  unfold set_valueOrType
  split <;> rfl

theorem valueOrType_set (p : Parm) (tv : List String) :
    valueOrType (set_valueOrType p tv) = tv := by
  unfold set_valueOrType valueOrType
  cases hv : p.value with
  | some v => simp [hv]
  | none => simp [hv]

theorem foldl_subst_preserves {x : String} :
    ∀ (ds : List Parm) (tv : List String),
      (∀ d ∈ ds, x ∉ valueOrType d) → x ∉ tv → x ∉ ds.foldl subst_one tv := by
  intro ds
  induction ds with
  | nil => intro tv _ hx; exact hx
  | cons d ds ih =>
    intro tv hvals hx
    simp only [List.foldl_cons]
    apply ih _ (fun e he => hvals e (List.mem_cons_of_mem _ he))
    cases hn : d.name with
    | none => simpa [subst_one, hn] using hx
    | some nm =>
      simp only [subst_one, hn]
      exact not_mem_replaceid hx (hvals d (List.mem_cons_self _ _))

theorem foldl_subst_removes {x : String} :
    ∀ (ds : List Parm) (tv : List String),
      (∀ d ∈ ds, x ∉ valueOrType d) →
      (∃ d ∈ ds, d.name = some x) → x ∉ ds.foldl subst_one tv := by
  intro ds
  induction ds with
  | nil => intro tv _ hex; rcases hex with ⟨d, hd, _⟩; cases hd
  | cons d ds ih =>
    intro tv hvals hex
    simp only [List.foldl_cons]
    by_cases hd : d.name = some x
    · apply foldl_subst_preserves ds _
        (fun e he => hvals e (List.mem_cons_of_mem _ he))
      simp only [subst_one, hd]
      exact not_mem_replaceid_self (hvals d (List.mem_cons_self _ _))
    · rcases hex with ⟨d', hd', hn'⟩
      rcases List.mem_cons.mp hd' with h | h
      · exact absurd (h ▸ hn') hd
      · exact ih _ (fun e he => hvals e (List.mem_cons_of_mem _ he)) ⟨d', h, hn'⟩

theorem foldl_subst_noop :
    ∀ (ds : List Parm) (tv : List String),
      (∀ d ∈ ds, ∀ nm, d.name = some nm → nm ∉ tv) →
      ds.foldl subst_one tv = tv := by
  intro ds
  induction ds with
  | nil => intro tv _; rfl
  | cons d ds ih =>
    intro tv h
    simp only [List.foldl_cons]
    have hone : subst_one tv d = tv := by
      cases hn : d.name with
      | none => simp [subst_one, hn]
      | some nm =>
        simp only [subst_one, hn]
        rw [replaceid_of_not_mem (h d (List.mem_cons_self _ _) nm hn)]
    rw [hone]
    exact ih tv (fun e he => h e (List.mem_cons_of_mem _ he))

theorem not_mem_subst_self {x : String} {tv : List String} {p : Parm}
    (hx : x ∉ tv) : x ∉ subst_self tv p := by
  cases hn : p.name with
  | none => simpa [subst_self, hn] using hx
  | some nm =>
    simp only [subst_self, hn]
    exact not_mem_replaceid hx hx

theorem expand_defaults_inner_clean (done : List Parm) (p : Parm)
    (todo : List Parm)
    (hdone : ∀ q ∈ done, ∀ nm, nameIn (done ++ p :: todo) nm →
      nm ∉ valueOrType q)
    (hp : ∀ q ∈ p :: todo, ∀ nm, q.name = some nm → nm ∉ valueOrType p) :
    ∀ nm, nameIn (done ++ p :: todo) nm →
      nm ∉ expand_defaults_inner done p todo := by
  have h1 : ∀ x, (∃ q ∈ p :: todo, q.name = some x) →
      x ∉ done.foldl subst_one (valueOrType p) := by
    intro x hx
    rcases hx with ⟨q, hq, hqn⟩
    apply foldl_subst_preserves done _ ?_ (hp q hq x hqn)
    intro d hd
    exact hdone d hd x ⟨q, List.mem_append.mpr (Or.inr hq), hqn⟩
  have h2 : ∀ x, (∃ q ∈ p :: todo, q.name = some x) →
      x ∉ subst_self (done.foldl subst_one (valueOrType p)) p :=
    fun x hx => not_mem_subst_self (h1 x hx)
  have h3 : todo.foldl subst_one
      (subst_self (done.foldl subst_one (valueOrType p)) p) =
      subst_self (done.foldl subst_one (valueOrType p)) p :=
    foldl_subst_noop todo _
      (fun d hd nm' hn' => h2 nm' ⟨d, List.mem_cons_of_mem _ hd, hn'⟩)
  intro nm hnm
  unfold expand_defaults_inner
  rw [h3]
  rcases hnm with ⟨q, hq, hqn⟩
  rcases List.mem_append.mp hq with hq | hq
  · have hrem : nm ∉ done.foldl subst_one (valueOrType p) := by
      apply foldl_subst_removes done _ ?_ ⟨q, hq, hqn⟩
      intro d hd
      exact hdone d hd nm ⟨q, List.mem_append.mpr (Or.inl hq), hqn⟩
    exact not_mem_subst_self hrem
  · exact h2 nm ⟨q, hq, hqn⟩

theorem nameIn_congr_set (done : List Parm) (p : Parm) (tv : List String)
    (todo : List Parm) (nm : String) :
    nameIn ((done ++ [set_valueOrType p tv]) ++ todo) nm ↔
      nameIn (done ++ p :: todo) nm := by
  constructor
  · rintro ⟨q, hq, hqn⟩
    rcases List.mem_append.mp hq with hq | hq
    · rcases List.mem_append.mp hq with hq | hq
      · exact ⟨q, List.mem_append.mpr (Or.inl hq), hqn⟩
      · have hqe : q = set_valueOrType p tv := by simpa using hq
        subst hqe
        refine ⟨p, List.mem_append.mpr (Or.inr (List.mem_cons_self _ _)), ?_⟩
        rw [← set_valueOrType_name p tv]
        exact hqn
    · exact ⟨q, List.mem_append.mpr (Or.inr (List.mem_cons_of_mem _ hq)), hqn⟩
  · rintro ⟨q, hq, hqn⟩
    rcases List.mem_append.mp hq with hq | hq
    · exact ⟨q, List.mem_append.mpr
        (Or.inl (List.mem_append.mpr (Or.inl hq))), hqn⟩
    · rcases List.mem_cons.mp hq with hq | hq
      · subst hq
        refine ⟨set_valueOrType q tv, List.mem_append.mpr
          (Or.inl (List.mem_append.mpr (Or.inr (List.mem_cons_self _ _)))), ?_⟩
        rw [set_valueOrType_name]
        exact hqn
      · exact ⟨q, List.mem_append.mpr (Or.inr hq), hqn⟩

theorem expand_defaults_go_clean :
    ∀ (todo done : List Parm),
      (∀ q ∈ done, ∀ nm, nameIn (done ++ todo) nm → nm ∉ valueOrType q) →
      no_late_refs todo = true →
      ∀ q ∈ expand_defaults_go done todo, ∀ nm, nameIn (done ++ todo) nm →
        nm ∉ valueOrType q := by
  intro todo
  induction todo with
  | nil =>
    intro done hdone _
    simpa [expand_defaults_go] using hdone
  | cons p todo ih =>
    intro done hdone hnlr
    obtain ⟨hp, hrest⟩ := no_late_refs_cons hnlr
    intro q hq nm hnm
    have hgo : expand_defaults_go done (p :: todo) =
        expand_defaults_go
          (done ++ [set_valueOrType p (expand_defaults_inner done p todo)])
          todo := rfl
    rw [hgo] at hq
    have hnm' : nameIn
        ((done ++ [set_valueOrType p (expand_defaults_inner done p todo)]) ++
          todo) nm :=
      (nameIn_congr_set done p _ todo nm).mpr hnm
    have hdone' : ∀ r ∈ done ++
        [set_valueOrType p (expand_defaults_inner done p todo)],
        ∀ x, nameIn
          ((done ++ [set_valueOrType p (expand_defaults_inner done p todo)]) ++
            todo) x → x ∉ valueOrType r := by
      intro r hr x hx
      have hx0 : nameIn (done ++ p :: todo) x :=
        (nameIn_congr_set done p _ todo x).mp hx
      rcases List.mem_append.mp hr with hr | hr
      · exact hdone r hr x hx0
      · have hre : r = set_valueOrType p (expand_defaults_inner done p todo) := by
          simpa using hr
        subst hre
        rw [valueOrType_set]
        exact expand_defaults_inner_clean done p todo hdone hp x hx0
    exact ih _ hdone' hrest q hq nm hnm'

theorem merge_parameters_flag :
    ∀ (ps tps : List Parm), ∀ q ∈ merge_parameters ps tps,
      ∃ p0 ∈ ps, q.defaultFlag = p0.defaultFlag := by
  intro ps
  induction ps with
  | nil =>
    intro tps q hq
    simp [merge_parameters] at hq
  | cons p ps ih =>
    intro tps q hq
    cases tps with
    | nil =>
      simp only [merge_parameters] at hq
      exact ⟨q, hq, rfl⟩
    | cons tp tps =>
      simp only [merge_parameters] at hq
      rcases List.mem_cons.mp hq with h | h
      · subst h
        exact ⟨p, List.mem_cons_self _ _, rfl⟩
      · rcases ih tps q h with ⟨p0, hp0, he⟩
        exact ⟨p0, List.mem_cons_of_mem _ hp0, he⟩

/-- C8: after Swig_cparse_template_parms_expand on a non-variadic class
template, no default-sourced parameter's value mentions any template parameter
name: every name-to-value back-reference inside a default has been replaced.
The hypotheses are the spec's well-formedness conditions on the joined list
(instantiated parameters carry no default mark, and defaults reference only
strictly earlier parameters). -/
theorem parms_expand_no_backrefs (inst templateparms : List Parm)
    (hvar : (ParmList_variadic_parm templateparms).isSome = false)
    (hflags : ∀ p ∈ inst, p.defaultFlag = false)
    (hord : no_late_refs (merge_parameters inst templateparms ++
      mark_defaults (templateparms.drop (ParmList_len inst))) = true) :
    ∀ q ∈ Swig_cparse_template_parms_expand inst true templateparms,
      q.defaultFlag = true →
      ∀ p ∈ merge_parameters inst templateparms ++
          mark_defaults (templateparms.drop (ParmList_len inst)),
        ∀ nm, p.name = some nm → nm ∉ valueOrType q := by
  intro q hq hqd p hp nm hnm
  have hres : Swig_cparse_template_parms_expand inst true templateparms =
      (if (templateparms.drop (ParmList_len inst)).isEmpty then
        merge_parameters inst templateparms
      else expand_defaults (merge_parameters inst templateparms ++
        mark_defaults (templateparms.drop (ParmList_len inst)))) := by
    simp [Swig_cparse_template_parms_expand, hvar]
  rw [hres] at hq
  by_cases hemp : (templateparms.drop (ParmList_len inst)).isEmpty
  · rw [if_pos hemp] at hq
    rcases merge_parameters_flag inst templateparms q hq with ⟨p0, hp0, he⟩
    rw [hflags p0 hp0] at he
    rw [he] at hqd
    cases hqd
  · rw [if_neg hemp] at hq
    exact expand_defaults_go_clean
      (merge_parameters inst templateparms ++
        mark_defaults (templateparms.drop (ParmList_len inst)))
      [] (fun r hr => absurd hr (List.not_mem_nil r)) hord q hq nm ⟨p, hp, hnm⟩

/-- Witness for C8 at a concrete input (the spec's Map scenario): expanding
`Map<int>` against `template<class K, class C = Less<(K)>>` produces the
default-sourced parameter with value `Less<(int)>`, which mentions `K` no
more. -/
theorem parms_expand_no_backrefs_witness :
    "K" ∉ valueOrType
      ⟨some "C", some ["Less<(", "int", ")>"], some ["C"], true⟩ := by
  have happ := parms_expand_no_backrefs
    [⟨none, none, some ["int"], false⟩]
    [⟨some "K", none, some ["K"], false⟩,
     ⟨some "C", some ["Less<(", "K", ")>"], some ["C"], false⟩]
    (by decide) (by decide) (by decide)
  apply happ ⟨some "C", some ["Less<(", "int", ")>"], some ["C"], true⟩ ?_ rfl
    ⟨some "K", none, some ["int"], false⟩ ?_ "K" rfl
  · have hres : Swig_cparse_template_parms_expand
        [⟨none, none, some ["int"], false⟩] true
        [⟨some "K", none, some ["K"], false⟩,
         ⟨some "C", some ["Less<(", "K", ")>"], some ["C"], false⟩] =
        [⟨some "K", none, some ["int"], false⟩,
         ⟨some "C", some ["Less<(", "int", ")>"], some ["C"], true⟩] := by
      decide
    rw [hres]
    simp
  · have hpre : merge_parameters [⟨none, none, some ["int"], false⟩]
        [⟨some "K", none, some ["K"], false⟩,
         ⟨some "C", some ["Less<(", "K", ")>"], some ["C"], false⟩] ++
        mark_defaults
          (List.drop (ParmList_len [⟨none, none, some ["int"], false⟩])
            [⟨some "K", none, some ["K"], false⟩,
             ⟨some "C", some ["Less<(", "K", ")>"], some ["C"], false⟩]) =
        [⟨some "K", none, some ["int"], false⟩,
         ⟨some "C", some ["Less<(", "K", ")>"], some ["C"], true⟩] := by
      decide
    rw [hpre]
    simp

/-- Modelled from the spec: `SwigType_add_template` of the external TypeOps
contract appends the encoded template argument tail built from the parameter
values (or types). -/
def SwigType_add_template (s : List String) (ps : List Parm) : List String :=
  s ++ ["<("] ++ ps.map (fun p => render (valueOrType p)) ++ [")>"]

/-- Modelled from the spec: `Swig_scopename_last` of the external Symbols
contract returns the terminal segment of a qualified name. -/
def Swig_scopename_last (s : List String) : List String :=
  [((render s).splitOn "::").getLast?.getD ""]

/-- Modelled from the spec: `SwigType_templateprefix` of the external TypeOps
contract strips the encoded template argument tail from a name. -/
def SwigType_templateprefix_of (s : List String) : List String :=
  s.takeWhile (fun f => !(f.startsWith "<("))

/-- Modelled from the spec: `SwigType_istemplate` of the external TypeOps
contract detects an encoded template argument tail. -/
def SwigType_istemplate (s : List String) : Bool :=
  s.any (fun f => f.startsWith "<(")

/-- Modelled from the spec: `SwigType_variadic_replace` of the external TypeOps
contract replaces the unexpanded pack parameter's name inside a type by the
expanded pack argument types. -/
def SwigType_variadic_replace (s : List String) (uv : Option Parm)
    (pack : List Parm) : List String :=
  match uv with
  | none => s
  | some u =>
    (replaceid s (u.name.getD "")
      (pack.foldr (fun p acc => (p.type.getD []) ++ acc) [])).1

/-- Substring test mirroring `Strstr`. -/
def str_contains (a b : String) : Bool :=
  b.length == 0 || (a.splitOn b).length > 1

/-- partial_arg from templ.c lines 401-418: strip from the concrete argument
the prefix that the candidate partial argument carries before its `$n`
placeholder; an argument without a placeholder is returned unchanged. -/
def partial_arg (s p : List String) : List String :=
  let pre := p.takeWhile (fun frag => !(frag.contains '$'))
  if pre.length = p.length then s
  else if s.take pre.length = pre then s.drop pre.length else s

/-- Attribute record of a declaration tree node, holding the attributes the
expander touches under the names used in the source (parameter-bearing
attributes as parameter lists; the three base lists are modelled as one). -/
structure NodeData where
  nodeTy : String
  err : Bool
  templatetypeAttr : Option String
  conversion_operator : Bool
  storage : Option String
  name : Option (List String)
  symName : Option (List String)
  value : Option (List String)
  code : Option (List String)
  decl : Option (List String)
  type : Option (List String)
  uname : Option (List String)
  parms : List Parm
  throwsL : List Parm
  kwargsL : List Parm
  patternL : List Parm
  bases : List (List String)
  templateparmsL : List Parm
  partialargsL : Option (List Parm)

/-- A declaration tree node: attributes plus ordered children. -/
inductive TNode where
  | node (data : NodeData) (children : List TNode)

/-- The three patch lists built during the tree walk (value-level snapshots of
the collected string attributes). -/
structure PatchLists where
  patchlist : List (List String)
  cpatchlist : List (List String)
  typelist : List (List String)

/-- Append an optional attribute to a patch list (DOH `Append` of a possibly
absent attribute). -/
def appendOpt (l : List (List String)) (x : Option (List String)) :
    List (List String) :=
  match x with
  | some s => l ++ [s]
  | none => l

/-- add_parms from templ.c lines 39-55: append each parameter's type and value
to the typelist (plus its name for typemap patterns) and its value to the
given patch list. -/
def add_parms (p : List Parm) (patch typel : List (List String))
    (is_pattern : Bool) : List (List String) × List (List String) :=
  p.foldl (fun acc q =>
    let t1 := appendOpt acc.2 q.type
    let t2 := appendOpt t1 q.value
    let t3 := if is_pattern then appendOpt t2 (q.name.map (fun nm => [nm]))
      else t2
    (appendOpt acc.1 q.value, t3)) (patch, typel)

/-- Constructor name rewriting from templ.c lines 222-257: replace the
stripped name by the template base name, then either schedule the name for
patching (it already carries template arguments) or append the encoded
template arguments; rewrite `sym:name` to the instance name. -/
def ctor_rewrite (tname rname templateargs : List String) (d : NodeData)
    (patch : List (List String)) : NodeData × List (List String) :=
  if d.templatetypeAttr.isSome then (d, patch)
  else
    let name0 := d.name.getD []
    let stripped := SwigType_templateprefix_of name0
    let name1 := if str_contains (render tname) (render stripped) then
        (replaceid name0 (render stripped) tname).1
      else name0
    let sym1 := d.symName.map (fun s =>
      let strippedS := SwigType_templateprefix_of s
      if str_contains (render tname) (render strippedS) then
        (replaceid s (render strippedS) tname).1
      else s)
    let np := if (render name1).contains '<' then (name1, patch ++ [name1])
      else (name1 ++ templateargs, patch)
    let sym2 := sym1.map (fun s =>
      if (render s).contains '<' then rname
      else (replaceid s (render tname) rname).1)
    ({ d with name := some np.1, symName := sym2 }, np.2)

/-- Destructor name rewriting from templ.c lines 262-285 (applied only when
the parent is the template root or an extend child of it). -/
def dtor_rewrite (tname rname templateargs : List String) (d : NodeData)
    (patch cpatch : List (List String)) :
    NodeData × List (List String) × List (List String) :=
  let np := match d.name with
    | none => (d.name, patch)
    | some nm =>
      if (render nm).contains '<' then (some nm, patch ++ [nm])
      else (some (nm ++ templateargs), patch)
  let sym1 := d.symName.map (fun s =>
    if (render s).contains '<' then tname
    else (replaceid s (render tname) rname).1)
  ({ d with name := np.1, symName := sym1 }, np.2, appendOpt cpatch d.code)

mutual
/-- cparse_template_expand from templ.c lines 118-311: recursive descent over
the template tree, expanding variadic parameter lists with the pack in scope
and collecting the three patch lists by node kind; a template node is retagged
to its templatetype (and restored afterwards for member templates). -/
def cparse_template_expand_node (tname rname templateargs : List String)
    (uv : Option Parm) (pack : List Parm)
    (isRoot parentIsRoot dtorOk expanded : Bool) :
    TNode → PatchLists → TNode × PatchLists
  | .node d cs, acc =>
    if d.err then (.node d cs, acc)
    else
      let isTemplate := d.nodeTy == "template"
      let d0 := if isTemplate then
          { d with nodeTy := d.templatetypeAttr.getD "" }
        else d
      let childExpanded := if isTemplate then true else expanded
      let childDtorOk := isRoot || (parentIsRoot && (d0.nodeTy == "extend"))
      let step :=
        if d0.nodeTy == "cdecl" then
          let acc1 : PatchLists :=
            { patchlist := appendOpt acc.patchlist d0.value,
              cpatchlist := appendOpt acc.cpatchlist d0.code,
              typelist := appendOpt (appendOpt acc.typelist d0.type) d0.decl }
          let acc2 := if d0.conversion_operator then
              { acc1 with cpatchlist :=
                  appendOpt (appendOpt acc1.cpatchlist d0.name) d0.symName }
            else acc1
          let fr := if d0.storage == some "friend" then
              ({ d0 with symName := d0.symName.map SwigType_templateprefix_of },
               { acc2 with typelist := appendOpt acc2.typelist d0.name })
            else (d0, acc2)
          let parms1 := expand_variadic_parms fr.1.parms uv pack
          let ct1 := add_parms parms1 fr.2.cpatchlist fr.2.typelist false
          let throws1 := expand_variadic_parms fr.1.throwsL uv pack
          let ct2 := add_parms throws1 ct1.1 ct1.2 false
          ({ fr.1 with parms := parms1, throwsL := throws1 }, cs,
           { patchlist := fr.2.patchlist, cpatchlist := ct2.1,
             typelist := ct2.2 })
        else if d0.nodeTy == "class" then
          let bl := d0.bases.foldl (fun (st : List (List String) × List (List String)) b =>
            if SwigType_isvariadic b then
              let vps := expand_variadic_parms
                [{ name := none, value := none, type := some b,
                   defaultFlag := false }] uv pack
              (st.1 ++ vps.map (fun vp => vp.type.getD []),
               st.2 ++ vps.map (fun vp => vp.type.getD []))
            else (st.1 ++ [b], st.2 ++ [b])) ([], acc.typelist)
          let acc1 := { acc with typelist := bl.2 }
          let sub := cparse_template_expand_list tname rname templateargs uv
            pack isRoot childDtorOk childExpanded cs acc1
          ({ d0 with bases := bl.1 }, sub.1, sub.2)
        else if d0.nodeTy == "constructor" then
          let cr := ctor_rewrite tname rname templateargs d0 acc.patchlist
          let acc1 : PatchLists :=
            { patchlist := cr.2,
              cpatchlist := appendOpt acc.cpatchlist cr.1.code,
              typelist := appendOpt acc.typelist cr.1.decl }
          let parms1 := expand_variadic_parms cr.1.parms uv pack
          let ct1 := add_parms parms1 acc1.cpatchlist acc1.typelist false
          let throws1 := expand_variadic_parms cr.1.throwsL uv pack
          let ct2 := add_parms throws1 ct1.1 ct1.2 false
          ({ cr.1 with parms := parms1, throwsL := throws1 }, cs,
           { patchlist := acc1.patchlist, cpatchlist := ct2.1,
             typelist := ct2.2 })
        else if d0.nodeTy == "destructor" then
          if dtorOk then
            let dr := dtor_rewrite tname rname templateargs d0 acc.patchlist
              acc.cpatchlist
            (dr.1, cs,
             { acc with patchlist := dr.2.1, cpatchlist := dr.2.2 })
          else (d0, cs, acc)
        else if d0.nodeTy == "using" then
          let acc1 := match d0.uname with
            | some u =>
              if (render u).contains '<' then
                { acc with patchlist := acc.patchlist ++ [u] }
              else acc
            | none => acc
          (d0, cs, acc1)
        else
          let acc1 : PatchLists :=
            { acc with
                cpatchlist := appendOpt acc.cpatchlist d0.code,
                typelist := appendOpt (appendOpt acc.typelist d0.type) d0.decl }
          let parms1 := expand_variadic_parms d0.parms uv pack
          let ct1 := add_parms parms1 acc1.cpatchlist acc1.typelist false
          let kwargs1 := expand_variadic_parms d0.kwargsL uv pack
          let ct2 := add_parms kwargs1 ct1.1 ct1.2 false
          let pat1 := expand_variadic_parms d0.patternL uv pack
          let ct3 := add_parms pat1 ct2.1 ct2.2 true
          let throws1 := expand_variadic_parms d0.throwsL uv pack
          let ct4 := add_parms throws1 ct3.1 ct3.2 false
          let acc2 : PatchLists :=
            { patchlist := acc1.patchlist, cpatchlist := ct4.1,
              typelist := ct4.2 }
          let sub := cparse_template_expand_list tname rname templateargs uv
            pack isRoot childDtorOk childExpanded cs acc2
          ({ d0 with parms := parms1, kwargsL := kwargs1,
                     patternL := pat1, throwsL := throws1 }, sub.1, sub.2)
      let d2 := if isTemplate && expanded then
          { step.1 with nodeTy := "template" }
        else step.1
      (.node d2 step.2.1, step.2.2)

/-- Child-list walk of cparse_template_expand. -/
def cparse_template_expand_list (tname rname templateargs : List String)
    (uv : Option Parm) (pack : List Parm)
    (parentIsRoot dtorOk expanded : Bool) :
    List TNode → PatchLists → List TNode × PatchLists
  | [], acc => ([], acc)
  | c :: rest, acc =>
    let r1 := cparse_template_expand_node tname rname templateargs uv pack
      false parentIsRoot dtorOk expanded c acc
    let r2 := cparse_template_expand_list tname rname templateargs uv pack
      parentIsRoot dtorOk expanded rest r1.2
    (r1.1 :: r2.1, r2.2)
end

/-- Substitution loop of Swig_cparse_template_expand (templ.c lines 494-585):
for each (formal, actual) pair compute the deduced value (typedef-reduce,
type-qualify, template-deftype on templates; the external symbol operations
are passed as functions), patch the later siblings' default values, and apply
identifier replace to the patchlist, variadic replace plus the guarded
typename replaces to the typelist, and the stringize plus identifier replace
to the cpatchlist.  When the actual list runs out the loop continues over the
formal list itself (`if (!p) p = tp`). -/
def template_expand_pairs (reduce qualify deftype : List String → List String)
    (lookup : List String → Option SymNode) (tsname : Option String)
    (uv : Option Parm) (pack : List Parm) (tbase : String)
    (iname : List String) :
    List Parm → List Parm → PatchLists → PatchLists
  | _, [], st => st
  | [], _ :: _, st => st
  | p :: ps, tp :: tps, st =>
    match tp.name with
    | none =>
      template_expand_pairs reduce qualify deftype lookup tsname uv pack tbase
        iname (if ps.isEmpty then tps else ps) tps st
    | some nm =>
      let value := p.value.getD (p.type.getD [])
      let qvalue := reduce value
      let dvalue0 := qualify qvalue
      let dvalue := if SwigType_istemplate dvalue0 then deftype dvalue0
        else dvalue0
      let valuestr := render dvalue
      let ps1 := ps.map (fun rp =>
        match rp.value with
        | some rv => { rp with value := some (replaceid rv nm dvalue).1 }
        | none => rp)
      let st1 : PatchLists :=
        { patchlist := st.patchlist.map (fun s => (replaceid s nm dvalue).1),
          cpatchlist := st.cpatchlist.map (fun s =>
            (replaceid (replaceid s ("#" ++ nm)
              ["\"" ++ valuestr ++ "\""]).1 nm [valuestr]).1),
          typelist := st.typelist.map (fun s =>
            (typelist_substitute lookup tsname nm dvalue tbase iname
              (SwigType_variadic_replace s uv pack)).1) }
      template_expand_pairs reduce qualify deftype lookup tsname uv pack tbase
        iname (if ps1.isEmpty then tps else ps1) tps st1

/-- The no-template-parameters branch of the substitution phase (templ.c lines
586-596): only variadic replace and the base-to-instance typename replace are
applied to the typelist. -/
def template_expand_notparms (uv : Option Parm) (pack : List Parm)
    (tbase : String) (iname : List String) (st : PatchLists) : PatchLists :=
  { st with typelist := st.typelist.map (fun s =>
      SwigType_typename_replace (SwigType_variadic_replace s uv pack) tbase
        iname) }

/-- A fragment that stays in the `type` attribute when fixing a function
declarator (qualifier). -/
def frag_isqualifier (f : String) : Bool := f.startsWith "q("

/-- A fragment that stays in the `type` attribute when fixing a function
declarator (array). -/
def frag_isarray (f : String) : Bool := f.startsWith "a("

/-- Modelled from the spec: `SwigType_isfunction` of the external TypeOps
contract detects a leading function fragment. -/
def SwigType_isfunction (t : List String) : Bool :=
  (t.head?.getD "").startsWith "f("

/-- cparse_fix_function_decl from templ.c lines 324-359: move the prefix of
the `type` attribute, excluding any trailing qualifier and array fragments,
to the end of the `decl` attribute. -/
def cparse_fix_function_decl (decl type : List String) :
    List String × List String :=
  let pre := type.dropLast
  let keptRev := pre.reverse.takeWhile
    (fun f => frag_isqualifier f || frag_isarray f)
  let moved := pre.take (pre.length - keptRev.length)
  (decl ++ moved,
   keptRev.reverse ++ (match type.getLast? with
    | some b => [b]
    | none => []))

mutual
/-- cparse_postprocess_expanded_template from templ.c lines 368-395: fix the
decl/type attributes of every function cdecl after substitution. -/
def cparse_postprocess_expanded_template : TNode → TNode
  | .node d cs =>
    if d.err then .node d cs
    else if d.nodeTy == "cdecl" then
      match d.decl, d.type with
      | some dc, some ty =>
        if SwigType_isfunction dc then
          let r := cparse_fix_function_decl dc ty
          .node { d with decl := some r.1, type := some r.2 } cs
        else .node d cs
      | _, _ => .node d cs
    else .node d (cparse_postprocess_children cs)

/-- Child recursion of the post-processor. -/
def cparse_postprocess_children : List TNode → List TNode
  | [] => []
  | c :: rest =>
    cparse_postprocess_expanded_template c :: cparse_postprocess_children rest
end

/-- Result of the expansion entry point: the mutated node, the (possibly
partial-arg rewritten) argument list, the final patch lists, and the returned
status code. -/
structure ExpandOutcome where
  node : TNode
  tparms : List Parm
  patchlist : List (List String)
  cpatchlist : List (List String)
  typelist : List (List String)
  ret : Int

/-- Swig_cparse_template_expand from templ.c lines 424-622: build the encoded
template arguments, rewrite the arguments against `partialargs` when
expanding a partial specialization, compute the variadic pack, walk the tree
collecting the patch lists, append the template arguments to the node's name,
run the substitution phase (or its no-parameters variant), post-process
function declarators, and patch the base list in the caller's scope.  The
function has a single exit, `return 0`. -/
def Swig_cparse_template_expand (n : TNode) (rname : List String)
    (tparms : List Parm)
    (reduce qualify deftype : List String → List String)
    (lookup : List String → Option SymNode) : ExpandOutcome :=
  match n with
  | .node d cs =>
    let templateargs := SwigType_add_template [] tparms
    let tname := d.name.getD []
    let tbase := Swig_scopename_last tname
    let tparms1 := match d.partialargsL with
      | none => tparms
      | some ptargs =>
        (tparms.zip ptargs).map (fun ptp =>
          match ptp.1.type, ptp.2.type with
          | some tptype, some ptype =>
            { ptp.1 with type := some (partial_arg tptype ptype) }
          | _, _ => ptp.1) ++ tparms.drop ptargs.length
    let templateparms := d.templateparmsL
    let uv := ParmList_variadic_parm templateparms
    let pack := if uv.isSome then
        tparms1.drop (ParmList_len templateparms - 1)
      else []
    let walked := cparse_template_expand_node tname rname templateargs uv pack
      true false false false (.node d cs) ⟨[], [], []⟩
    let renamed := match walked.1 with
      | .node d1 cs1 =>
        (TNode.node { d1 with name := d1.name.map (fun nm => nm ++ templateargs) }
          cs1)
    let iname := (match renamed with
      | .node d1 _ => d1.name.getD [])
    let tsname := d.symName.map render
    let lists := if tparms1.isEmpty || templateparms.isEmpty then
        template_expand_notparms uv pack (render tbase) iname walked.2
      else
        template_expand_pairs reduce qualify deftype lookup tsname uv pack
          (render tbase) iname tparms1 templateparms walked.2
    let post := cparse_postprocess_expanded_template renamed
    let post1 := match post with
      | .node dp csp => TNode.node { dp with bases := dp.bases.map qualify } csp
    { node := post1, tparms := tparms1, patchlist := lists.patchlist,
      cpatchlist := lists.cpatchlist, typelist := lists.typelist, ret := 0 }

/-- C10: the expansion entry point returns 0 for every input: its single exit
is `return 0`, and no path produces a nonzero error result even though the
interface is documented as returning 0 or an error. -/
theorem Swig_cparse_template_expand_returns_zero (n : TNode)
    (rname : List String) (tparms : List Parm)
    (reduce qualify deftype : List String → List String)
    (lookup : List String → Option SymNode) :
    (Swig_cparse_template_expand n rname tparms reduce qualify deftype
      lookup).ret = 0 := by
  match n with
  | .node d cs => rfl

/-- The type attributes of a parameter list, as read by the expander. -/
def parm_types (ps : List Parm) : List (List String) :=
  ps.map (fun p => p.type.getD [])

mutual
/-- All type strings reachable from a node: its `type` and `decl` attributes,
the types of its four parameter-bearing attributes, its base-class names, and
recursively everything reachable from its children. -/
def tnode_type_strings : TNode → List (List String)
  | .node d cs =>
    appendOpt (appendOpt [] d.type) d.decl ++ parm_types d.parms ++
      parm_types d.throwsL ++ parm_types d.kwargsL ++ parm_types d.patternL ++
      d.bases ++ tlist_type_strings cs

/-- Type strings reachable from a list of nodes. -/
def tlist_type_strings : List TNode → List (List String)
  | [] => []
  | c :: rest => tnode_type_strings c ++ tlist_type_strings rest
end

/-- A parameter list without any variadic parameter. -/
def NoVariadicParm (ps : List Parm) : Prop :=
  ∀ p ∈ ps, SwigType_isvariadic (p.type.getD []) = false

/-- The spec's well-formedness discipline for a parameter list that the
expander will pack-expand: only the trailing parameter may be variadic, and a
variadic trailing parameter requires a pack parameter in scope and carries a
single leading variadic marker. -/
def ParmListWF (uv : Option Parm) (ps : List Parm) : Prop :=
  (∀ p ∈ ps.dropLast, SwigType_isvariadic (p.type.getD []) = false) ∧
  (match ps.getLast? with
   | some V => SwigType_isvariadic (V.type.getD []) = true →
       uv.isSome = true ∧ "v." ∉ SwigType_del_variadic (V.type.getD [])
   | none => True)

/-- Discipline for a class node's base list: a variadic base pack requires a
pack parameter in scope and a single leading variadic marker. -/
def BasesWF (uv : Option Parm) (bases : List (List String)) : Prop :=
  ∀ b ∈ bases, SwigType_isvariadic b = true →
    uv.isSome = true ∧ "v." ∉ SwigType_del_variadic b

/-- A base list without any variadic entry. -/
def BasesClean (bases : List (List String)) : Prop :=
  ∀ b ∈ bases, SwigType_isvariadic b = false

/-- The node kind the walker dispatches on: a template node is treated as the
kind recorded in its `templatetype` attribute. -/
def effective_nodeTy (d : NodeData) : String :=
  if d.nodeTy == "template" then d.templatetypeAttr.getD "" else d.nodeTy

mutual
/-- Well-formedness of an input declaration tree for variadic elimination,
mirroring the shape of real template trees and the code's own
`assert(!SwigType_isvariadic(s))` on collected type strings: no node is in
error, non-parameter type attributes carry no variadic marker, the parameter
lists that the walker pack-expands obey the trailing-variadic discipline, the
lists it leaves alone (and the base lists of non-class nodes) are already
variadic-free, a class node's bases obey the base-pack discipline, and node
kinds the walker does not recurse into have no children. -/
def treeWF (uv : Option Parm) : TNode → Prop
  | .node d cs =>
    d.err = false ∧
    "v." ∉ d.type.getD [] ∧ "v." ∉ d.decl.getD [] ∧
    (if effective_nodeTy d == "cdecl" then
      ParmListWF uv d.parms ∧ ParmListWF uv d.throwsL ∧
      NoVariadicParm d.kwargsL ∧ NoVariadicParm d.patternL ∧
      BasesClean d.bases ∧ cs = []
    else if effective_nodeTy d == "class" then
      NoVariadicParm d.parms ∧ NoVariadicParm d.throwsL ∧
      NoVariadicParm d.kwargsL ∧ NoVariadicParm d.patternL ∧
      BasesWF uv d.bases ∧ treeWFList uv cs
    else if effective_nodeTy d == "constructor" then
      ParmListWF uv d.parms ∧ ParmListWF uv d.throwsL ∧
      NoVariadicParm d.kwargsL ∧ NoVariadicParm d.patternL ∧
      BasesClean d.bases ∧ cs = []
    else if effective_nodeTy d == "destructor" then
      NoVariadicParm d.parms ∧ NoVariadicParm d.throwsL ∧
      NoVariadicParm d.kwargsL ∧ NoVariadicParm d.patternL ∧
      BasesClean d.bases ∧ cs = []
    else if effective_nodeTy d == "using" then
      NoVariadicParm d.parms ∧ NoVariadicParm d.throwsL ∧
      NoVariadicParm d.kwargsL ∧ NoVariadicParm d.patternL ∧
      BasesClean d.bases ∧ cs = []
    else
      ParmListWF uv d.parms ∧ ParmListWF uv d.throwsL ∧
      ParmListWF uv d.kwargsL ∧ ParmListWF uv d.patternL ∧
      BasesClean d.bases ∧ treeWFList uv cs)

/-- Well-formedness of a list of sibling subtrees. -/
def treeWFList (uv : Option Parm) : List TNode → Prop
  | [] => True
  | c :: rest => treeWF uv c ∧ treeWFList uv rest
end

mutual
/-- The variadic-free invariant on a declaration tree: the `type` and `decl`
attributes carry no variadic marker anywhere, no parameter of any
parameter-bearing attribute is variadic, no base entry is variadic, and the
same holds recursively for the children. -/
def treeClean : TNode → Prop
  | .node d cs =>
    "v." ∉ d.type.getD [] ∧ "v." ∉ d.decl.getD [] ∧
    NoVariadicParm d.parms ∧ NoVariadicParm d.throwsL ∧
    NoVariadicParm d.kwargsL ∧ NoVariadicParm d.patternL ∧
    BasesClean d.bases ∧ treeCleanList cs

/-- The variadic-free invariant on a list of sibling subtrees. -/
def treeCleanList : List TNode → Prop
  | [] => True
  | c :: rest => treeClean c ∧ treeCleanList rest
end

mutual
/-- Structural induction for declaration trees, with separate motives for a
node and for a child list, matching the recursion of the tree walks. -/
def tnode_induction (P : TNode → Prop) (Q : List TNode → Prop)
    (hnode : ∀ d cs, Q cs → P (.node d cs))
    (hnil : Q []) (hcons : ∀ c rest, P c → Q rest → Q (c :: rest)) :
    ∀ n : TNode, P n
  | .node d cs => hnode d cs (tlist_induction P Q hnode hnil hcons cs)

/-- Child-list part of the tree induction. -/
def tlist_induction (P : TNode → Prop) (Q : List TNode → Prop)
    (hnode : ∀ d cs, Q cs → P (.node d cs))
    (hnil : Q []) (hcons : ∀ c rest, P c → Q rest → Q (c :: rest)) :
    ∀ l : List TNode, Q l
  | [] => hnil
  | c :: rest => hcons c rest (tnode_induction P Q hnode hnil hcons c)
      (tlist_induction P Q hnode hnil hcons rest)
end

/-- The partial-specialization argument rewrite computed at the top of
Swig_cparse_template_expand (templ.c lines 440-459), as a function of the
node's attributes. -/
def template_expand_tparms1 (d : NodeData) (tparms : List Parm) : List Parm :=
  match d.partialargsL with
  | none => tparms
  | some ptargs =>
    (tparms.zip ptargs).map (fun ptp =>
      match ptp.1.type, ptp.2.type with
      | some tptype, some ptype =>
        { ptp.1 with type := some (partial_arg tptype ptype) }
      | _, _ => ptp.1) ++ tparms.drop ptargs.length

/-- The unexpanded variadic template parameter the expansion entry point
computes for a node (templ.c line 469). -/
def template_expand_uv (d : NodeData) : Option Parm :=
  ParmList_variadic_parm d.templateparmsL

/-- The expanded variadic pack the expansion entry point computes for a node
(templ.c line 470). -/
def template_expand_pack (d : NodeData) (tparms : List Parm) : List Parm :=
  if (template_expand_uv d).isSome then
    (template_expand_tparms1 d tparms).drop (ParmList_len d.templateparmsL - 1)
  else []

/-- Attribute record of a tree node. -/
def tnode_data : TNode → NodeData
  | .node d _ => d

theorem mem_dropLast_or_getLast {α : Type} {q : α} {ps : List α} (hq : q ∈ ps) :
    q ∈ ps.dropLast ∨ ps.getLast? = some q := by
  cases hL : ps.getLast? with
  | none =>
    have hnil : ps = [] := List.getLast?_eq_none_iff.mp hL
    subst hnil
    cases hq
  | some L =>
    have hps : ps ≠ [] := by
      intro h
      subst h
      simp at hL
    have hdecomp : ps.dropLast ++ [ps.getLast hps] = ps :=
      List.dropLast_append_getLast hps
    have hLeq : ps.getLast hps = L := by
      have := List.getLast?_eq_getLast ps hps
      rw [hL] at this
      exact (Option.some.inj this).symm
    rw [← hdecomp] at hq
    rcases List.mem_append.mp hq with h | h
    · exact Or.inl h
    · have hqL : q = L := by
        rw [hLeq] at h
        simpa using h
      subst hqL
      exact Or.inr rfl

theorem ParmList_variadic_parm_some {ps : List Parm} {V : Parm}
    (h : ParmList_variadic_parm ps = some V) :
    ps.getLast? = some V ∧ SwigType_isvariadic (V.type.getD []) = true := by
  cases hL : ps.getLast? with
  | none =>
    simp only [ParmList_variadic_parm, hL] at h
    exact Option.noConfusion h
  | some L =>
    simp only [ParmList_variadic_parm, hL] at h
    by_cases hvar : SwigType_isvariadic (L.type.getD []) = true
    · rw [if_pos hvar] at h
      have hLV : L = V := Option.some.inj h
      subst hLV
      exact ⟨rfl, hvar⟩
    · rw [if_neg hvar] at h
      cases h

/-- Local pack-expansion invariant: a parameter list obeying the trailing
variadic discipline expands, against a pack whose argument types carry no
variadic marker, to a list with no variadic parameter; this holds whether or
not a pack parameter is in scope and whether or not the list ends variadic. -/
theorem expand_variadic_parms_clean (ps pk : List Parm) (uvp : Option Parm)
    (hwf : ParmListWF uvp ps)
    (hpk : ∀ ep ∈ pk, "v." ∉ ep.type.getD []) :
    ∀ q ∈ expand_variadic_parms ps uvp pk,
      SwigType_isvariadic (q.type.getD []) = false := by
  obtain ⟨hinit, hlast⟩ := hwf
  cases uvp with
  | none =>
    intro q hq
    have hq' : q ∈ ps := by simpa [expand_variadic_parms] using hq
    rcases mem_dropLast_or_getLast hq' with h | h
    · exact hinit q h
    · by_cases hv : SwigType_isvariadic (q.type.getD []) = true
      · rw [h] at hlast
        obtain ⟨hsome, -⟩ := hlast hv
        simp at hsome
      · simpa using hv
  | some uv =>
    cases hV : ParmList_variadic_parm ps with
    | none =>
      intro q hq
      have hq' : q ∈ ps := by simpa [expand_variadic_parms, hV] using hq
      rcases mem_dropLast_or_getLast hq' with h | h
      · exact hinit q h
      · simp only [ParmList_variadic_parm, h] at hV
        by_cases hv : SwigType_isvariadic (q.type.getD []) = true
        · rw [hv] at hV
          simp at hV
        · simpa using hv
    | some V =>
      intro q hq
      simp only [expand_variadic_parms, hV] at hq
      rcases List.mem_append.mp hq with h | h
      · exact hinit q h
      · rcases List.mem_map.mp h with ⟨ep, hep, hmap⟩
        obtain ⟨hVlast, hVvar⟩ := ParmList_variadic_parm_some hV
        rw [hVlast] at hlast
        obtain ⟨-, hdel⟩ := hlast hVvar
        have hnotmem : "v." ∉
            (replaceid (SwigType_del_variadic (V.type.getD []))
              (uv.name.getD "") (ep.type.getD [])).1 :=
          not_mem_replaceid hdel (hpk ep hep)
        rw [← hmap]
        simp only [Option.getD_some]
        exact isvariadic_eq_false_of_not_mem hnotmem

theorem treeClean_node {d : NodeData} {cs : List TNode} :
    treeClean (.node d cs) ↔
      ("v." ∉ d.type.getD [] ∧ "v." ∉ d.decl.getD [] ∧
       NoVariadicParm d.parms ∧ NoVariadicParm d.throwsL ∧
       NoVariadicParm d.kwargsL ∧ NoVariadicParm d.patternL ∧
       BasesClean d.bases ∧ treeCleanList cs) := by
  rw [treeClean]

theorem treeCleanList_nil : treeCleanList [] := by
  rw [treeCleanList]
  trivial

theorem treeClean_of_fields {x : NodeData} {cs : List TNode}
    (h1 : "v." ∉ x.type.getD []) (h2 : "v." ∉ x.decl.getD [])
    (h3 : NoVariadicParm x.parms) (h4 : NoVariadicParm x.throwsL)
    (h5 : NoVariadicParm x.kwargsL) (h6 : NoVariadicParm x.patternL)
    (h7 : BasesClean x.bases) (h8 : treeCleanList cs) :
    treeClean (.node x cs) :=
  treeClean_node.mpr ⟨h1, h2, h3, h4, h5, h6, h7, h8⟩

theorem treeClean_retag (x : NodeData) (cs : List TNode) (s : String) :
    treeClean (.node { x with nodeTy := s } cs) ↔ treeClean (.node x cs) := by
  rw [treeClean_node, treeClean_node]

theorem treeClean_retag_ite (cond : Bool) (x : NodeData) (cs : List TNode)
    (s : String) (h : treeClean (.node x cs)) :
    treeClean (.node (if cond then { x with nodeTy := s } else x) cs) := by
  by_cases hc : cond = true
  · rw [if_pos hc, treeClean_retag]
    exact h
  · rw [if_neg hc]
    exact h

theorem treeClean_d0 (d : NodeData) (cs : List TNode)
    (h : treeClean (.node d cs)) :
    treeClean (.node (if d.nodeTy == "template" then
        { d with nodeTy := d.templatetypeAttr.getD "" } else d) cs) := by
  by_cases hT : (d.nodeTy == "template") = true
  · rw [if_pos hT, treeClean_retag]
    exact h
  · rw [if_neg hT]
    exact h

theorem treeClean_set_name (x : NodeData) (cs : List TNode)
    (nm : Option (List String)) :
    treeClean (.node { x with name := nm } cs) ↔ treeClean (.node x cs) := by
  rw [treeClean_node, treeClean_node]

theorem treeClean_map_bases (x : NodeData) (cs : List TNode)
    (f : List String → List String)
    (hf : ∀ s, SwigType_isvariadic s = false →
      SwigType_isvariadic (f s) = false)
    (h : treeClean (.node x cs)) :
    treeClean (.node { x with bases := x.bases.map f } cs) := by
  rw [treeClean_node] at h
  obtain ⟨h1, h2, h3, h4, h5, h6, h7, h8⟩ := h
  refine treeClean_of_fields h1 h2 h3 h4 h5 h6 ?_ h8
  intro bb hb
  rcases List.mem_map.mp hb with ⟨b0, hb0, hmap⟩
  rw [← hmap]
  exact hf b0 (h7 b0 hb0)

theorem d0_nodeTy (d : NodeData) :
    (if d.nodeTy == "template" then
        { d with nodeTy := d.templatetypeAttr.getD "" }
      else d).nodeTy = effective_nodeTy d := by
  unfold effective_nodeTy
  by_cases h : (d.nodeTy == "template") = true
  · rw [if_pos h, if_pos h]
  · rw [if_neg h, if_neg h]

theorem d0_type (d : NodeData) :
    (if d.nodeTy == "template" then
        { d with nodeTy := d.templatetypeAttr.getD "" }
      else d).type = d.type := by
  by_cases h : (d.nodeTy == "template") = true
  · rw [if_pos h]
  · rw [if_neg h]

theorem d0_decl (d : NodeData) :
    (if d.nodeTy == "template" then
        { d with nodeTy := d.templatetypeAttr.getD "" }
      else d).decl = d.decl := by
  by_cases h : (d.nodeTy == "template") = true
  · rw [if_pos h]
  · rw [if_neg h]

theorem d0_parms (d : NodeData) :
    (if d.nodeTy == "template" then
        { d with nodeTy := d.templatetypeAttr.getD "" }
      else d).parms = d.parms := by
  by_cases h : (d.nodeTy == "template") = true
  · rw [if_pos h]
  · rw [if_neg h]

theorem d0_throwsL (d : NodeData) :
    (if d.nodeTy == "template" then
        { d with nodeTy := d.templatetypeAttr.getD "" }
      else d).throwsL = d.throwsL := by
  by_cases h : (d.nodeTy == "template") = true
  · rw [if_pos h]
  · rw [if_neg h]

theorem d0_kwargsL (d : NodeData) :
    (if d.nodeTy == "template" then
        { d with nodeTy := d.templatetypeAttr.getD "" }
      else d).kwargsL = d.kwargsL := by
  by_cases h : (d.nodeTy == "template") = true
  · rw [if_pos h]
  · rw [if_neg h]

theorem d0_patternL (d : NodeData) :
    (if d.nodeTy == "template" then
        { d with nodeTy := d.templatetypeAttr.getD "" }
      else d).patternL = d.patternL := by
  by_cases h : (d.nodeTy == "template") = true
  · rw [if_pos h]
  · rw [if_neg h]

theorem d0_bases (d : NodeData) :
    (if d.nodeTy == "template" then
        { d with nodeTy := d.templatetypeAttr.getD "" }
      else d).bases = d.bases := by
  by_cases h : (d.nodeTy == "template") = true
  · rw [if_pos h]
  · rw [if_neg h]

theorem d0_storage (d : NodeData) :
    (if d.nodeTy == "template" then
        { d with nodeTy := d.templatetypeAttr.getD "" }
      else d).storage = d.storage := by
  by_cases h : (d.nodeTy == "template") = true
  · rw [if_pos h]
  · rw [if_neg h]

theorem ctor_rewrite_type (tname rname templateargs : List String)
    (d : NodeData) (patch : List (List String)) :
    (ctor_rewrite tname rname templateargs d patch).1.type = d.type := by
  unfold ctor_rewrite
  by_cases h : d.templatetypeAttr.isSome = true
  · rw [if_pos h]
  · rw [if_neg h]

theorem ctor_rewrite_decl (tname rname templateargs : List String)
    (d : NodeData) (patch : List (List String)) :
    (ctor_rewrite tname rname templateargs d patch).1.decl = d.decl := by
  unfold ctor_rewrite
  by_cases h : d.templatetypeAttr.isSome = true
  · rw [if_pos h]
  · rw [if_neg h]

theorem ctor_rewrite_parms (tname rname templateargs : List String)
    (d : NodeData) (patch : List (List String)) :
    (ctor_rewrite tname rname templateargs d patch).1.parms = d.parms := by
  unfold ctor_rewrite
  by_cases h : d.templatetypeAttr.isSome = true
  · rw [if_pos h]
  · rw [if_neg h]

theorem ctor_rewrite_throwsL (tname rname templateargs : List String)
    (d : NodeData) (patch : List (List String)) :
    (ctor_rewrite tname rname templateargs d patch).1.throwsL = d.throwsL := by
  unfold ctor_rewrite
  by_cases h : d.templatetypeAttr.isSome = true
  · rw [if_pos h]
  · rw [if_neg h]

theorem ctor_rewrite_kwargsL (tname rname templateargs : List String)
    (d : NodeData) (patch : List (List String)) :
    (ctor_rewrite tname rname templateargs d patch).1.kwargsL = d.kwargsL := by
  unfold ctor_rewrite
  by_cases h : d.templatetypeAttr.isSome = true
  · rw [if_pos h]
  · rw [if_neg h]

theorem ctor_rewrite_patternL (tname rname templateargs : List String)
    (d : NodeData) (patch : List (List String)) :
    (ctor_rewrite tname rname templateargs d patch).1.patternL = d.patternL := by
  unfold ctor_rewrite
  by_cases h : d.templatetypeAttr.isSome = true
  · rw [if_pos h]
  · rw [if_neg h]

theorem ctor_rewrite_bases (tname rname templateargs : List String)
    (d : NodeData) (patch : List (List String)) :
    (ctor_rewrite tname rname templateargs d patch).1.bases = d.bases := by
  unfold ctor_rewrite
  by_cases h : d.templatetypeAttr.isSome = true
  · rw [if_pos h]
  · rw [if_neg h]

theorem dtor_rewrite_type (tname rname templateargs : List String)
    (d : NodeData) (patch cpatch : List (List String)) :
    (dtor_rewrite tname rname templateargs d patch cpatch).1.type = d.type := rfl

theorem dtor_rewrite_decl (tname rname templateargs : List String)
    (d : NodeData) (patch cpatch : List (List String)) :
    (dtor_rewrite tname rname templateargs d patch cpatch).1.decl = d.decl := rfl

theorem dtor_rewrite_parms (tname rname templateargs : List String)
    (d : NodeData) (patch cpatch : List (List String)) :
    (dtor_rewrite tname rname templateargs d patch cpatch).1.parms = d.parms := rfl

theorem dtor_rewrite_throwsL (tname rname templateargs : List String)
    (d : NodeData) (patch cpatch : List (List String)) :
    (dtor_rewrite tname rname templateargs d patch cpatch).1.throwsL = d.throwsL := rfl

theorem dtor_rewrite_kwargsL (tname rname templateargs : List String)
    (d : NodeData) (patch cpatch : List (List String)) :
    (dtor_rewrite tname rname templateargs d patch cpatch).1.kwargsL = d.kwargsL := rfl

theorem dtor_rewrite_patternL (tname rname templateargs : List String)
    (d : NodeData) (patch cpatch : List (List String)) :
    (dtor_rewrite tname rname templateargs d patch cpatch).1.patternL = d.patternL := rfl

theorem dtor_rewrite_bases (tname rname templateargs : List String)
    (d : NodeData) (patch cpatch : List (List String)) :
    (dtor_rewrite tname rname templateargs d patch cpatch).1.bases = d.bases := rfl

/-- The base-list fold of the class branch (templ.c lines 184-212) yields only
variadic-free base entries: a non-variadic base is kept as is, and a variadic
base pack is replaced by its pack expansion, whose types are variadic-free. -/
theorem bases_fold_clean (uv : Option Parm) (pack : List Parm)
    (hpk : ∀ ep ∈ pack, "v." ∉ ep.type.getD []) :
    ∀ (bs : List (List String))
      (init : List (List String) × List (List String)),
      BasesWF uv bs → (∀ x ∈ init.1, SwigType_isvariadic x = false) →
      ∀ x ∈ (bs.foldl (fun (st : List (List String) × List (List String)) b =>
          if SwigType_isvariadic b then
            (st.1 ++ (expand_variadic_parms
                [{ name := none, value := none, type := some b,
                   defaultFlag := false }] uv pack).map
                (fun vp => vp.type.getD []),
             st.2 ++ (expand_variadic_parms
                [{ name := none, value := none, type := some b,
                   defaultFlag := false }] uv pack).map
                (fun vp => vp.type.getD []))
          else (st.1 ++ [b], st.2 ++ [b])) init).1,
        SwigType_isvariadic x = false := by
  intro bs
  induction bs with
  | nil =>
    intro init _ hinit x hx
    exact hinit x hx
  | cons bhd btl ih =>
    intro init hwfb hinit x hx
    rw [List.foldl_cons] at hx
    refine ih _ (fun b1 hb1 hv1 => hwfb b1 (List.mem_cons_of_mem _ hb1) hv1)
      ?_ x hx
    intro y hy
    simp only [] at hy
    by_cases hv : SwigType_isvariadic bhd = true
    · rw [if_pos hv] at hy
      rcases List.mem_append.mp hy with h | h
      · exact hinit y h
      · rcases List.mem_map.mp h with ⟨vp, hvp, hmap⟩
        obtain ⟨huv, hdel⟩ := hwfb bhd (List.mem_cons_self _ _) hv
        cases huvc : uv with
        | none =>
          rw [huvc] at huv
          simp at huv
        | some u =>
          rw [huvc] at hvp
          have hVP : ParmList_variadic_parm
              [{ name := none, value := none, type := some bhd,
                 defaultFlag := false }] =
              some { name := none, value := none, type := some bhd,
                     defaultFlag := false } := by
            simp [ParmList_variadic_parm, hv]
          simp only [expand_variadic_parms, hVP, List.dropLast_single,
            List.nil_append, Option.getD_some] at hvp
          rcases List.mem_map.mp hvp with ⟨ep, hep, hmap2⟩
          rw [← hmap, ← hmap2]
          simp only [Option.getD_some]
          exact isvariadic_eq_false_of_not_mem
            (not_mem_replaceid hdel (hpk ep hep))
    · rw [if_neg hv] at hy
      rcases List.mem_append.mp hy with h | h
      · exact hinit y h
      · have hyb : y = bhd := by simpa using h
        subst hyb
        simpa using hv

/-- The tree walk of cparse_template_expand turns a well-formed input tree
into a variadic-free tree: every parameter-bearing attribute is pack-expanded
(or was already variadic-free), a class node's variadic bases are replaced by
their pack expansions, and the name rewrites touch no type string. -/
theorem walker_preserves_clean (tname rname templateargs : List String)
    (uv : Option Parm) (pack : List Parm)
    (hpk : ∀ ep ∈ pack, "v." ∉ ep.type.getD []) :
    ∀ n : TNode, ∀ (a b c e : Bool) (acc : PatchLists), treeWF uv n →
      treeClean (cparse_template_expand_node tname rname templateargs uv pack
        a b c e n acc).1 := by
  refine tnode_induction
    (fun n => ∀ (a b c e : Bool) (acc : PatchLists), treeWF uv n →
      treeClean (cparse_template_expand_node tname rname templateargs uv pack
        a b c e n acc).1)
    (fun l => ∀ (b c e : Bool) (acc : PatchLists), treeWFList uv l →
      treeCleanList (cparse_template_expand_list tname rname templateargs uv
        pack b c e l acc).1)
    ?_ ?_ ?_
  · intro d cs ih a b c e acc hwf
    simp only [treeWF] at hwf
    obtain ⟨herr, hty, hdecl, hrest⟩ := hwf
    have herr' : ¬(d.err = true) := by simp [herr]
    simp only [cparse_template_expand_node]
    rw [if_neg herr']
    simp only [d0_nodeTy, d0_type, d0_decl, d0_parms, d0_throwsL, d0_kwargsL,
      d0_patternL, d0_bases, d0_storage]
    refine treeClean_retag_ite _ _ _ _ ?_
    by_cases hc1 : (effective_nodeTy d == "cdecl") = true
    · rw [if_pos hc1] at hrest ⊢
      obtain ⟨hparms, hthrows, hkw, hpat, hbases, hcs⟩ := hrest
      subst hcs
      by_cases hf2 : (d.storage == some "friend") = true
      · rw [if_pos hf2]
        refine treeClean_of_fields ?_ ?_ ?_ ?_ ?_ ?_ ?_ treeCleanList_nil
        · exact hty
        · exact hdecl
        · exact expand_variadic_parms_clean d.parms pack uv hparms hpk
        · exact expand_variadic_parms_clean d.throwsL pack uv hthrows hpk
        · exact hkw
        · exact hpat
        · exact hbases
      · rw [if_neg hf2]
        refine treeClean_of_fields ?_ ?_ ?_ ?_ ?_ ?_ ?_ treeCleanList_nil
        · simp only [d0_type]
          exact hty
        · simp only [d0_decl]
          exact hdecl
        · simp only [d0_parms]
          exact expand_variadic_parms_clean d.parms pack uv hparms hpk
        · simp only [d0_throwsL]
          exact expand_variadic_parms_clean d.throwsL pack uv hthrows hpk
        · simp only [d0_kwargsL]
          exact hkw
        · simp only [d0_patternL]
          exact hpat
        · simp only [d0_bases]
          exact hbases
    · rw [if_neg hc1] at hrest ⊢
      by_cases hc2 : (effective_nodeTy d == "class") = true
      · rw [if_pos hc2] at hrest ⊢
        obtain ⟨hparms, hthrows, hkw, hpat, hbwf, hkids⟩ := hrest
        refine treeClean_of_fields ?_ ?_ ?_ ?_ ?_ ?_ ?_ ?_
        · exact hty
        · exact hdecl
        · exact hparms
        · exact hthrows
        · exact hkw
        · exact hpat
        · exact fun x hx => bases_fold_clean uv pack hpk d.bases
            ([], acc.typelist) hbwf
            (fun y hy => absurd hy (List.not_mem_nil y)) x hx
        · exact ih _ _ _ _ hkids
      · rw [if_neg hc2] at hrest ⊢
        by_cases hc3 : (effective_nodeTy d == "constructor") = true
        · rw [if_pos hc3] at hrest ⊢
          obtain ⟨hparms, hthrows, hkw, hpat, hbases, hcs⟩ := hrest
          subst hcs
          refine treeClean_of_fields ?_ ?_ ?_ ?_ ?_ ?_ ?_ treeCleanList_nil
          · simp only [ctor_rewrite_type, d0_type]
            exact hty
          · simp only [ctor_rewrite_decl, d0_decl]
            exact hdecl
          · simp only [ctor_rewrite_parms, d0_parms]
            exact expand_variadic_parms_clean d.parms pack uv hparms hpk
          · simp only [ctor_rewrite_throwsL, d0_throwsL]
            exact expand_variadic_parms_clean d.throwsL pack uv hthrows hpk
          · simp only [ctor_rewrite_kwargsL, d0_kwargsL]
            exact hkw
          · simp only [ctor_rewrite_patternL, d0_patternL]
            exact hpat
          · simp only [ctor_rewrite_bases, d0_bases]
            exact hbases
        · rw [if_neg hc3] at hrest ⊢
          by_cases hc4 : (effective_nodeTy d == "destructor") = true
          · rw [if_pos hc4] at hrest ⊢
            obtain ⟨hparms, hthrows, hkw, hpat, hbases, hcs⟩ := hrest
            subst hcs
            by_cases hok : c = true
            · rw [if_pos hok]
              refine treeClean_of_fields ?_ ?_ ?_ ?_ ?_ ?_ ?_ treeCleanList_nil
              · simp only [dtor_rewrite_type, d0_type]
                exact hty
              · simp only [dtor_rewrite_decl, d0_decl]
                exact hdecl
              · simp only [dtor_rewrite_parms, d0_parms]
                exact hparms
              · simp only [dtor_rewrite_throwsL, d0_throwsL]
                exact hthrows
              · simp only [dtor_rewrite_kwargsL, d0_kwargsL]
                exact hkw
              · simp only [dtor_rewrite_patternL, d0_patternL]
                exact hpat
              · simp only [dtor_rewrite_bases, d0_bases]
                exact hbases
            · rw [if_neg hok]
              exact treeClean_d0 d [] (treeClean_of_fields hty hdecl hparms
                hthrows hkw hpat hbases treeCleanList_nil)
          · rw [if_neg hc4] at hrest ⊢
            by_cases hc5 : (effective_nodeTy d == "using") = true
            · rw [if_pos hc5] at hrest ⊢
              obtain ⟨hparms, hthrows, hkw, hpat, hbases, hcs⟩ := hrest
              subst hcs
              exact treeClean_d0 d [] (treeClean_of_fields hty hdecl hparms
                hthrows hkw hpat hbases treeCleanList_nil)
            · rw [if_neg hc5] at hrest ⊢
              obtain ⟨hparms, hthrows, hkw, hpat, hbases, hkids⟩ := hrest
              refine treeClean_of_fields ?_ ?_ ?_ ?_ ?_ ?_ ?_ ?_
              · exact hty
              · exact hdecl
              · exact expand_variadic_parms_clean d.parms pack uv hparms hpk
              · exact expand_variadic_parms_clean d.throwsL pack uv hthrows hpk
              · exact expand_variadic_parms_clean d.kwargsL pack uv hkw hpk
              · exact expand_variadic_parms_clean d.patternL pack uv hpat hpk
              · exact hbases
              · exact ih _ _ _ _ hkids
  · intro b c e acc hl
    simp only [cparse_template_expand_list]
    exact treeCleanList_nil
  · intro ch rest ihc ihr b c e acc hl
    simp only [treeWFList] at hl
    simp only [cparse_template_expand_list, treeCleanList]
    exact ⟨ihc false b c e acc hl.1, ihr b c e _ hl.2⟩

/-- Fixing a function declarator only redistributes fragments: every fragment
of the new decl comes from the old decl or the old type, and every fragment of
the new type comes from the old type. -/
theorem cparse_fix_function_decl_subset (dc ty : List String) :
    (∀ x ∈ (cparse_fix_function_decl dc ty).1, x ∈ dc ∨ x ∈ ty) ∧
    (∀ x ∈ (cparse_fix_function_decl dc ty).2, x ∈ ty) := by
  constructor
  · intro x hx
    simp only [cparse_fix_function_decl] at hx
    rcases List.mem_append.mp hx with h | h
    · exact Or.inl h
    · exact Or.inr (List.dropLast_subset _ (List.take_subset _ _ h))
  · intro x hx
    simp only [cparse_fix_function_decl] at hx
    rcases List.mem_append.mp hx with h | h
    · have h1 := List.mem_reverse.mp h
      have h2 := List.takeWhile_subset
        (fun f => frag_isqualifier f || frag_isarray f) h1
      exact List.dropLast_subset _ (List.mem_reverse.mp h2)
    · cases hL : ty.getLast? with
      | none =>
        rw [hL] at h
        cases h
      | some bb =>
        rw [hL] at h
        have hxb : x = bb := by simpa using h
        rw [hxb]
        exact List.mem_of_getLast?_eq_some hL

/-- The post-processing pass preserves the variadic-free invariant: on cdecl
function nodes it only redistributes decl/type fragments, and elsewhere it
only recurses into the children. -/
theorem postprocess_preserves_clean :
    ∀ n, treeClean n → treeClean (cparse_postprocess_expanded_template n) := by
  refine tnode_induction
    (fun n => treeClean n → treeClean (cparse_postprocess_expanded_template n))
    (fun l => treeCleanList l →
      treeCleanList (cparse_postprocess_children l))
    ?_ ?_ ?_
  · intro d cs ih h
    have h' := treeClean_node.mp h
    obtain ⟨h1, h2, h3, h4, h5, h6, h7, h8⟩ := h'
    simp only [cparse_postprocess_expanded_template]
    by_cases herr : d.err = true
    · rw [if_pos herr]
      exact h
    · rw [if_neg herr]
      by_cases hc : (d.nodeTy == "cdecl") = true
      · rw [if_pos hc]
        cases hdc : d.decl with
        | none =>
          cases hty : d.type with
          | some ty => exact h
          | none => exact h
        | some dc =>
          cases hty : d.type with
          | none => exact h
          | some ty =>
            simp only []
            by_cases hf : SwigType_isfunction dc = true
            · rw [if_pos hf]
              refine treeClean_of_fields ?_ ?_ h3 h4 h5 h6 h7 h8
              · intro hmem
                have hsub := (cparse_fix_function_decl_subset dc ty).2
                have := hsub "v." (by simpa using hmem)
                rw [hty] at h1
                exact h1 (by simpa using this)
              · intro hmem
                have hsub := (cparse_fix_function_decl_subset dc ty).1
                rcases hsub "v." (by simpa using hmem) with hv | hv
                · rw [hdc] at h2
                  exact h2 (by simpa using hv)
                · rw [hty] at h1
                  exact h1 (by simpa using hv)
            · rw [if_neg hf]
              exact h
      · rw [if_neg hc]
        exact treeClean_of_fields h1 h2 h3 h4 h5 h6 h7 (ih h8)
  · intro h
    simp only [cparse_postprocess_children]
    exact treeCleanList_nil
  · intro ch rest ihc ihr h
    simp only [treeCleanList] at h
    simp only [cparse_postprocess_children, treeCleanList]
    exact ⟨ihc h.1, ihr h.2⟩

theorem mem_appendOpt {x : List String} {l : List (List String)}
    {o : Option (List String)} (h : x ∈ appendOpt l o) :
    x ∈ l ∨ o = some x := by
  cases o with
  | none => exact Or.inl h
  | some a =>
    rcases List.mem_append.mp h with h1 | h1
    · exact Or.inl h1
    · right
      have hxa : x = a := by simpa using h1
      rw [hxa]

/-- A tree satisfying the variadic-free invariant has no reachable type string
with a leading variadic marker. -/
theorem treeClean_type_strings :
    ∀ n, treeClean n →
      ∀ s ∈ tnode_type_strings n, SwigType_isvariadic s = false := by
  refine tnode_induction
    (fun n => treeClean n →
      ∀ s ∈ tnode_type_strings n, SwigType_isvariadic s = false)
    (fun l => treeCleanList l →
      ∀ s ∈ tlist_type_strings l, SwigType_isvariadic s = false)
    ?_ ?_ ?_
  · intro d cs ih h s hs
    obtain ⟨h1, h2, h3, h4, h5, h6, h7, h8⟩ := treeClean_node.mp h
    simp only [tnode_type_strings] at hs
    rcases List.mem_append.mp hs with hs | hs
    case inr => exact ih h8 s hs
    rcases List.mem_append.mp hs with hs | hs
    case inr => exact h7 s hs
    rcases List.mem_append.mp hs with hs | hs
    case inr =>
      rcases List.mem_map.mp hs with ⟨p, hp, hmap⟩
      rw [← hmap]
      exact h6 p hp
    rcases List.mem_append.mp hs with hs | hs
    case inr =>
      rcases List.mem_map.mp hs with ⟨p, hp, hmap⟩
      rw [← hmap]
      exact h5 p hp
    rcases List.mem_append.mp hs with hs | hs
    case inr =>
      rcases List.mem_map.mp hs with ⟨p, hp, hmap⟩
      rw [← hmap]
      exact h4 p hp
    rcases List.mem_append.mp hs with hs | hs
    case inr =>
      rcases List.mem_map.mp hs with ⟨p, hp, hmap⟩
      rw [← hmap]
      exact h3 p hp
    rcases mem_appendOpt hs with hs | hs
    case inr =>
      have : "v." ∉ s := by
        intro hv
        rw [hs] at h2
        exact h2 (by simpa using hv)
      exact isvariadic_eq_false_of_not_mem this
    rcases mem_appendOpt hs with hs | hs
    case inr =>
      have : "v." ∉ s := by
        intro hv
        rw [hs] at h1
        exact h1 (by simpa using hv)
      exact isvariadic_eq_false_of_not_mem this
    cases hs
  · intro _ s hs
    simp only [tlist_type_strings] at hs
    cases hs
  · intro ch rest ihc ihr h s hs
    simp only [treeCleanList] at h
    simp only [tlist_type_strings] at hs
    rcases List.mem_append.mp hs with hs | hs
    · exact ihc h.1 s hs
    · exact ihr h.2 s hs

/-- The renaming step of the expansion entry point (templ.c lines 476-489):
append the encoded template arguments to the node's name. -/
def rename_node (templateargs : List String) : TNode → TNode
  | .node d1 cs1 =>
    .node { d1 with name := d1.name.map (fun nm => nm ++ templateargs) } cs1

/-- The final base patch of the expansion entry point (templ.c lines 598-620):
qualify every base entry in the caller's scope. -/
def qualify_bases_node (qualify : List String → List String) : TNode → TNode
  | .node dp csp => .node { dp with bases := dp.bases.map qualify } csp

/-- The node field of the expansion outcome is the tree walk followed by the
renaming, the post-processing and the base qualification. -/
theorem Swig_cparse_template_expand_node_pipeline (d : NodeData)
    (cs : List TNode) (rname : List String) (tparms : List Parm)
    (reduce qualify deftype : List String → List String)
    (lookup : List String → Option SymNode) :
    (Swig_cparse_template_expand (.node d cs) rname tparms reduce qualify
      deftype lookup).node =
      qualify_bases_node qualify (cparse_postprocess_expanded_template
        (rename_node (SwigType_add_template [] tparms)
          (cparse_template_expand_node (d.name.getD []) rname
            (SwigType_add_template [] tparms) (template_expand_uv d)
            (template_expand_pack d tparms) true false false false
            (.node d cs) ⟨[], [], []⟩).1)) := rfl

theorem rename_node_clean (templateargs : List String) (n : TNode)
    (h : treeClean n) : treeClean (rename_node templateargs n) := by
  cases n with
  | node d1 cs1 =>
    simp only [rename_node]
    exact (treeClean_set_name d1 cs1 _).mpr h

theorem qualify_bases_node_clean (qualify : List String → List String)
    (hqual : ∀ s, SwigType_isvariadic s = false →
      SwigType_isvariadic (qualify s) = false)
    (n : TNode) (h : treeClean n) :
    treeClean (qualify_bases_node qualify n) := by
  cases n with
  | node dp csp =>
    simp only [qualify_bases_node]
    exact treeClean_map_bases dp csp qualify hqual h

/-- The node returned by the expansion entry point satisfies the variadic-free
invariant: the walk eliminates variadic parameters and bases, the renaming
touches only the name, the post-processing only redistributes decl/type
fragments, and base qualification preserves non-variadic entries. -/
theorem template_expand_node_clean (d : NodeData) (cs : List TNode)
    (rname : List String) (tparms : List Parm)
    (reduce qualify deftype : List String → List String)
    (lookup : List String → Option SymNode)
    (hqual : ∀ s, SwigType_isvariadic s = false →
      SwigType_isvariadic (qualify s) = false)
    (hpk : ∀ ep ∈ template_expand_pack d tparms, "v." ∉ ep.type.getD [])
    (hwf : treeWF (template_expand_uv d) (.node d cs)) :
    treeClean (Swig_cparse_template_expand (.node d cs) rname tparms reduce
      qualify deftype lookup).node := by
  rw [Swig_cparse_template_expand_node_pipeline]
  exact qualify_bases_node_clean qualify hqual _
    (postprocess_preserves_clean _ (rename_node_clean _ _
      (walker_preserves_clean (d.name.getD []) rname
        (SwigType_add_template [] tparms) (template_expand_uv d)
        (template_expand_pack d tparms) hpk (.node d cs) true false false
        false ⟨[], [], []⟩ hwf)))

/-- C6: after the expansion entry point Swig_cparse_template_expand completes
on a node, no type string reachable from the resulting node satisfies
is_variadic, under the spec's input disciplines: the input tree is well-formed
for the computed unexpanded variadic template parameter (no error nodes,
variadic parameters only in trailing position of the attributes the walk
pack-expands with a pack in scope and a single leading marker, all other
reachable type strings already variadic-free, childless non-recursed node
kinds), the computed pack argument types carry no variadic marker, and base
qualification preserves non-variadic entries; in particular, pack expansion
of any parameter-bearing attribute under the same discipline leaves no
variadic parameter in that attribute's parameter list. -/
theorem template_expand_no_variadic_reachable (n : TNode)
    (rname : List String) (tparms : List Parm)
    (reduce qualify deftype : List String → List String)
    (lookup : List String → Option SymNode)
    (hqual : ∀ s, SwigType_isvariadic s = false →
      SwigType_isvariadic (qualify s) = false)
    (hpk : ∀ ep ∈ template_expand_pack (tnode_data n) tparms,
      "v." ∉ ep.type.getD [])
    (hwf : treeWF (template_expand_uv (tnode_data n)) n) :
    (∀ s ∈ tnode_type_strings (Swig_cparse_template_expand n rname tparms
        reduce qualify deftype lookup).node,
      SwigType_isvariadic s = false) ∧
    (∀ (ps pk : List Parm) (uvp : Option Parm), ParmListWF uvp ps →
      (∀ ep ∈ pk, "v." ∉ ep.type.getD []) →
      ∀ q ∈ expand_variadic_parms ps uvp pk,
        SwigType_isvariadic (q.type.getD []) = false) := by
  constructor
  · cases n with
    | node d cs =>
      exact treeClean_type_strings _
        (template_expand_node_clean d cs rname tparms reduce qualify deftype
          lookup hqual hpk hwf)
  · exact fun ps pk uvp h1 h2 => expand_variadic_parms_clean ps pk uvp h1 h2

/-- Witness for C6 at a concrete instantiation: expanding a function template
node `int f(v.r.T tt)` whose template parameter list is the pack `T...`
against the arguments `A, B`, every hypothesis holds and the theorem yields
that the reachable expanded parameter type `r.A` is not variadic. -/
theorem template_expand_no_variadic_reachable_witness :
    SwigType_isvariadic ["r.", "A"] = false := by
  have h := (template_expand_no_variadic_reachable
    (.node { nodeTy := "cdecl", err := false, templatetypeAttr := none,
             conversion_operator := false, storage := none,
             name := some ["f"], symName := some ["f"], value := none,
             code := none, decl := none, type := some ["int"], uname := none,
             parms := [⟨some "tt", none, some ["v.", "r.", "T"], false⟩],
             throwsL := [], kwargsL := [], patternL := [], bases := [],
             templateparmsL := [⟨some "T", none, some ["v.", "T"], false⟩],
             partialargsL := none } [])
    ["X"] [⟨none, none, some ["A"], false⟩, ⟨none, none, some ["B"], false⟩]
    id id id (fun _ => none)
    (fun _ hs => hs)
    (by decide)
    (by simp [treeWF, treeWFList, effective_nodeTy, ParmListWF, NoVariadicParm,
      BasesClean, BasesWF, template_expand_uv, tnode_data,
      ParmList_variadic_parm, SwigType_isvariadic, SwigType_del_variadic])).1
  exact h ["r.", "A"] (by simp [Swig_cparse_template_expand,
    cparse_template_expand_node, cparse_postprocess_expanded_template,
    cparse_postprocess_children, rename_node, qualify_bases_node,
    tnode_type_strings, tlist_type_strings, parm_types, appendOpt,
    expand_variadic_parms, ParmList_variadic_parm, SwigType_isvariadic,
    SwigType_del_variadic, replaceid, SwigType_add_template, ParmList_len,
    valueOrType, render, SwigType_isfunction, add_parms])
